import Mathlib

/-!
# Verification of the task scheduling core (src/pipeline/scheduler.py)

Shallow embedding of the `DataPipelineScheduler` class and its collaborators.

Modelling conventions:
* Python dicts are insertion-ordered association lists (`List (String × _)`);
  assignment to an existing key keeps its position, a fresh key is appended.
* The networkx `DiGraph` is the pair of its node list and (deduplicated) edge
  list, both in insertion order; `topological_sort` is modelled after the
  networkx 3.x implementation (concatenation of `topological_generations`,
  Kahn's algorithm processed generation by generation in node insertion
  order, children appended when their in-degree reaches zero).
* A task's callable is modelled as a function from the attempt index and the
  mapping of dependency results to `Except AttemptErr α`: the attempt index
  stands for the hidden state of an effectful action (so an action may fail
  on some attempts and succeed on others), `.error .timeout` models an
  attempt that exceeds `asyncio.timeout`, `.error .actionError` any other
  raised exception.  The `config` object is threaded opaquely into every
  call in the source, so it is folded into the closure.  The sync/async and
  zero-arg/dep-arg call-site dispatch in `execute_task` only selects the
  calling convention and is collapsed into the single application.
* `await asyncio.sleep(d)` is recorded in a `sleeps` trace rather than
  executed; wall-clock logging is dropped.
* `asyncio.gather` over one layer is modelled by executing the layer's tasks
  sequentially in list order: tasks of one layer write distinct cache keys
  and read only keys written by strictly earlier layers, and a failed
  sibling does not cancel the others (the source gathers without
  cancellation), so the sequential interleaving is faithful to the
  observable cache and error behaviour.
-/

/-- `Priority` enum from the source: HIGH=0, MEDIUM=1, LOW=2. -/
inductive Priority
  | HIGH
  | MEDIUM
  | LOW
deriving DecidableEq

/-- `Priority.value`: the ordinal of the enum member. -/
def Priority.value : Priority → Nat
  | .HIGH => 0
  | .MEDIUM => 1
  | .LOW => 2

/-- A single attempt of a task's action either times out
(`asyncio.TimeoutError`) or raises some other exception; the retry loop in
`execute_task` treats both alike (log and continue). -/
inductive AttemptErr
  | timeout
  | actionError
deriving DecidableEq

/-- The exception raised by `execute_task` once all attempts are exhausted:
`Exception(f"Task {task_name} failed after {task.retries} attempts")`. -/
structure PermFail where
  name : String
  attempts : Nat
deriving DecidableEq

/-- The `ValueError`s raised by `add_task`: a dependency name not present in
the registry, or the post-insertion acyclicity check failing. -/
inductive SchedErr
  | unknownDependency (dep : String)
  | cycleDetected
deriving DecidableEq

/-- The exceptions surfaced by `run`: the cycle error `nx.topological_sort`
would raise, the `KeyError` of looking up an unregistered task name during
execution, or a task failing permanently. -/
inductive RunError
  | cyclic
  | missingTask (name : String)
  | taskFailed (e : PermFail)
deriving DecidableEq

/-- The `PipelineTask` dataclass.  `function` is the action (see module
docstring for the encoding), the remaining fields mirror the source,
including the defaults `timeout=60` and `retries=3`. -/
structure PipelineTask (α : Type) where
  name : String
  function : Nat → List (String × α) → Except AttemptErr α
  priority : Priority
  dependencies : List String := []
  timeout : Nat := 60
  retries : Nat := 3
  metadata : List (String × String) := []

/-- Python dict lookup (first binding of the key; keys are kept unique). -/
def dictFind (k : String) : List (String × β) → Option β
  | [] => none
  | (k', v) :: rest => if k' = k then some v else dictFind k rest

/-- Python dict assignment: overwrite in place if the key exists, else
append. -/
def dictInsert (l : List (String × β)) (k : String) (v : β) : List (String × β) :=
  match l with
  | [] => [(k, v)]
  | (k', v') :: rest => if k' = k then (k, v) :: rest else (k', v') :: dictInsert rest k v

/-- Python `del d[k]`. -/
def dictErase (l : List (String × β)) (k : String) : List (String × β) :=
  l.filter (fun p => p.1 ≠ k)

/-- Python dict assignment to a key known to be present (keeps position). -/
def dictUpdate (l : List (String × β)) (k : String) (v : β) : List (String × β) :=
  l.map (fun p => if p.1 = k then (k, v) else p)

/-- Keys of an association list. -/
def dictKeys (l : List (String × β)) : List String :=
  l.map (fun p => p.1)

/-- The scheduler state: the task registry `self.tasks`, the node and edge
lists of `self.graph`, and `self.results_cache`.  `self.config` is folded
into the task closures and `self.logger` has no modelled effect. -/
structure Scheduler (α : Type) where
  tasks : List (String × PipelineTask α)
  nodes : List String
  edges : List (String × String)
  results_cache : List (String × α)

/-- The freshly constructed scheduler: `__init__` starts with empty
registry, empty graph and empty results cache. -/
def emptyScheduler : Scheduler α :=
  { tasks := [], nodes := [], edges := [], results_cache := [] }

/-- `G.add_node(n)`: append the node unless already present (re-adding a
node is a no-op on the node set; the stored `priority` attribute is never
read by the scheduling logic, so it is not modelled). -/
def addNode (s : Scheduler α) (n : String) : Scheduler α :=
  if s.nodes.contains n then s else { s with nodes := s.nodes ++ [n] }

/-- `G.add_edge(u, v)`: ensure both endpoints exist, then append the edge
unless already present (a `DiGraph` has no parallel edges). -/
def addEdge (s : Scheduler α) (u v : String) : Scheduler α :=
  let s' := addNode (addNode s u) v
  if s'.edges.contains (u, v) then s' else { s' with edges := s'.edges ++ [(u, v)] }

/-- In-degree of `v`: the number of stored edges ending at `v`. -/
def inDegree (edges : List (String × String)) (v : String) : Nat :=
  (edges.filter (fun e => e.2 = v)).length

/-- `G.neighbors(u)`: successors of `u` in adjacency insertion order. -/
def neighborsOf (edges : List (String × String)) (u : String) : List String :=
  (edges.filter (fun e => e.1 = u)).map (fun e => e.2)

/-- One step of Kahn's algorithm on a child: `indegree_map[child] -= 1`,
and when the count reaches zero delete the entry and append the child to
the next generation.  A child absent from the map would make networkx raise
`RuntimeError("Graph changed during iteration")`; it cannot happen for the
graphs the scheduler builds, and is modelled as a no-op. -/
def decChild (m : List (String × Nat)) (z : List String) (child : String) :
    List (String × Nat) × List String :=
  match dictFind child m with
  | none => (m, z)
  | some c =>
    if c - 1 = 0 then (dictErase m child, z ++ [child])
    else (dictUpdate m child (c - 1), z)

/-- Process one node of the current generation: decrement all its
successors. -/
def processNode (edges : List (String × String))
    (acc : List (String × Nat) × List String) (u : String) :
    List (String × Nat) × List String :=
  (neighborsOf edges u).foldl (fun a child => decChild a.1 a.2 child) acc

/-- The `while zero_indegree:` loop of `nx.topological_generations`.  The
fuel bounds the number of generations; `nodes.length` suffices because
every emitted generation is nonempty and generations are disjoint. -/
def topoGensLoop (edges : List (String × String)) :
    Nat → List (String × Nat) → List String → List (List String)
  | 0, _, _ => []
  | fuel + 1, indeg, zero =>
    if zero.isEmpty then []
    else
      let step := zero.foldl (processNode edges) (indeg, [])
      zero :: topoGensLoop edges fuel step.1 step.2

/-- `nx.topological_generations(G)` (networkx 3.x): initial in-degree map
over the positive-degree nodes, initial generation the zero-in-degree nodes,
both in node insertion order. -/
def topological_generations (s : Scheduler α) : List (List String) :=
  let indeg0 := s.nodes.filterMap
    (fun v => if inDegree s.edges v > 0 then some (v, inDegree s.edges v) else none)
  let zero0 := s.nodes.filter (fun v => inDegree s.edges v = 0)
  topoGensLoop s.edges s.nodes.length indeg0 zero0

/-- `list(nx.topological_sort(G))`: the generations concatenated. -/
def topoSortNames (s : Scheduler α) : List String :=
  (topological_generations s).flatten

/-- `nx.is_directed_acyclic_graph(G)`: the graph is acyclic iff Kahn's
algorithm consumes every node. -/
def is_directed_acyclic_graph (s : Scheduler α) : Bool :=
  (topoSortNames s).length == s.nodes.length

/-- The `for dep in task.dependencies:` loop of `add_task`: check each
dependency against the registry and insert its edge; on a missing
dependency raise at once, keeping the mutations already made. -/
def addDepEdges (s : Scheduler α) (tname : String) :
    List String → Scheduler α × Except SchedErr Unit
  | [] => (s, .ok ())
  | dep :: rest =>
    if (dictFind dep s.tasks).isSome then addDepEdges (addEdge s dep tname) tname rest
    else (s, .error (.unknownDependency dep))

/-- `add_task`: store the task (overwriting any previous definition of the
name), add its node, insert one edge per declared dependency (raising
`ValueError` on an unregistered name), then check acyclicity (raising
`ValueError` if a cycle appeared).  The method mutates `self` before
validating, so the pair also returns the state left behind by a failing
call. -/
def add_task (s : Scheduler α) (t : PipelineTask α) :
    Scheduler α × Except SchedErr Unit :=
  let s1 := addNode { s with tasks := dictInsert s.tasks t.name t } t.name
  match addDepEdges s1 t.name t.dependencies with
  | (s2, .error e) => (s2, .error e)
  | (s2, .ok ()) =>
    if is_directed_acyclic_graph s2 then (s2, .ok ()) else (s2, .error .cycleDetected)

/-- Registering a list of tasks one at a time (the caller loop in
`main.run_pipeline`); the first raised error stops the loop. -/
def addAll (s : Scheduler α) : List (PipelineTask α) → Scheduler α × Except SchedErr Unit
  | [] => (s, .ok ())
  | t :: ts =>
    match add_task s t with
    | (s', .ok ()) => addAll s' ts
    | (s', .error e) => (s', .error e)

/-- The dict comprehension
`{dep: self.results_cache[dep] for dep in task.dependencies}`; a missing
entry is Python's `KeyError`, reported as `none`. -/
def resolveDeps (cache : List (String × α)) : List String → Option (List (String × α))
  | [] => some []
  | d :: ds =>
    match dictFind d cache with
    | none => none
    | some v => (resolveDeps cache ds).map (fun rest => (d, v) :: rest)

/-- One attempt of the `try:` body: resolve dependency inputs from the
results cache (a `KeyError` is caught by the `except Exception` arm, hence
an ordinary attempt failure), then invoke the action. -/
def attemptOnce (t : PipelineTask α) (cache : List (String × α)) (attempt : Nat) :
    Except AttemptErr α :=
  match resolveDeps cache t.dependencies with
  | none => .error .actionError
  | some depResults => t.function attempt depResults

instance [DecidableEq ε] [DecidableEq σ] : DecidableEq (Except ε σ) := fun a b =>
  match a, b with
  | .ok x, .ok y => if h : x = y then .isTrue (by rw [h]) else .isFalse (by simp [h])
  | .error x, .error y => if h : x = y then .isTrue (by rw [h]) else .isFalse (by simp [h])
  | .ok _, .error _ => .isFalse (by simp)
  | .error _, .ok _ => .isFalse (by simp)

/-- Everything observable about one `execute_task` call: the returned value
or raised permanent failure, the results cache afterwards, how many times
the action was invoked, and the backoff sleeps in order. -/
structure ExecResult (α : Type) where
  outcome : Except PermFail α
  cache : List (String × α)
  invocations : Nat
  sleeps : List Nat
deriving DecidableEq

/-- The `for attempt in range(task.retries):` loop.  On success the result
is stored under `task_name` in the cache and returned; on a failed attempt
nothing is stored, and if `attempt < task.retries - 1` the loop sleeps
`2 ** attempt` before retrying; an exhausted loop raises the permanent
failure reporting `task.retries` attempts. -/
def execLoop (t : PipelineTask α) (task_name : String) (cache : List (String × α))
    (attempt : Nat) : Nat → ExecResult α
  | 0 =>
    { outcome := .error { name := task_name, attempts := t.retries },
      cache := cache, invocations := 0, sleeps := [] }
  | remaining + 1 =>
    match attemptOnce t cache attempt with
    | .ok result =>
      { outcome := .ok result, cache := dictInsert cache task_name result,
        invocations := 1, sleeps := [] }
    | .error _ =>
      let rest := execLoop t task_name cache (attempt + 1) remaining
      { outcome := rest.outcome, cache := rest.cache,
        invocations := rest.invocations + 1,
        sleeps := if attempt < t.retries - 1 then 2 ^ attempt :: rest.sleeps
                  else rest.sleeps }

/-- `execute_task(self, task_name)`: look the task up in the registry
(`none` models the `KeyError` of an unregistered name) and run the retry
loop starting at attempt 0 with `task.retries` attempts remaining. -/
def execute_task (tasks : List (String × PipelineTask α))
    (cache : List (String × α)) (task_name : String) : Option (ExecResult α) :=
  (dictFind task_name tasks).map (fun t => execLoop t task_name cache 0 t.retries)

/-- `self.tasks[task_name].dependencies` as read by the layering loop; the
lookup cannot fail for a name produced by the topological sort of a
scheduler built through `add_task`, so the `KeyError` case defaults to no
dependencies. -/
def depsOfName (tasks : List (String × PipelineTask α)) (n : String) : List String :=
  ((dictFind n tasks).map (fun t => t.dependencies)).getD []

/-- `self.tasks[x].priority.value`, the sort key of the layering loop (same
unreachable-`KeyError` convention as `depsOfName`). -/
def prioValue (tasks : List (String × PipelineTask α)) (n : String) : Nat :=
  ((dictFind n tasks).map (fun t => t.priority.value)).getD 0

/-- Stable insertion of `x` into `l` by the key `key`: `x` is placed before
the first element of `l` whose key is not smaller, so elements with equal
keys keep their original relative order. -/
def insertKeyed (key : String → Nat) (x : String) : List String → List String
  | [] => [x]
  | y :: rest =>
    if key x ≤ key y then x :: y :: rest else y :: insertKeyed key x rest

/-- `ready_tasks.sort(key=lambda x: self.tasks[x].priority.value)`.
Python's `list.sort` is stable; a stable sort by a given key is determined
extensionally by that property (elements ordered by key, ties by original
position), so this stable insertion sort computes the same list as the
source's Timsort. -/
def sortKeyed (key : String → Nat) : List String → List String
  | [] => []
  | x :: xs => insertKeyed key x (sortKeyed key xs)

/-- The `while task_order:` loop of `run`.  Each round filters the tasks
whose dependencies are all visited, sorts them stably by ascending
priority ordinal, and removes them from the remaining order.  When no task
is ready and tasks remain the source loops forever; the fuel makes the
model total, and the situation is unreachable for registries built through
successful `add_task` calls. -/
def buildLayersLoop (tasks : List (String × PipelineTask α)) :
    Nat → List String → List String → List (List String)
  | 0, _, _ => []
  | fuel + 1, taskOrder, visited =>
    if taskOrder.isEmpty then []
    else
      let ready := taskOrder.filter
        (fun n => (depsOfName tasks n).all (fun d => visited.contains d))
      let layer := sortKeyed (prioValue tasks) ready
      if layer.isEmpty then buildLayersLoop tasks fuel taskOrder visited
      else layer :: buildLayersLoop tasks fuel (layer.foldl List.erase taskOrder)
        (visited ++ layer)

/-- The `priority_layers` computed at the start of `run`. -/
def buildLayersOf (s : Scheduler α) : List (List String) :=
  buildLayersLoop s.tasks (topoSortNames s).length (topoSortNames s) []

/-- One task of a gathered layer: run it on the accumulated cache and keep
the first error seen (`KeyError` for an unregistered name, or the
permanent `TaskExecutionFailed`). -/
def execStep (tasks : List (String × PipelineTask α))
    (acc : List (String × α) × Option RunError) (name : String) :
    List (String × α) × Option RunError :=
  match execute_task tasks acc.1 name with
  | none => (acc.1, acc.2 <|> some (.missingTask name))
  | some r =>
    (r.cache,
      acc.2 <|> (match r.outcome with
                 | .ok _ => none
                 | .error e => some (.taskFailed e)))

/-- One `asyncio.gather` over a layer: every task of the layer runs (a
permanent failure does not cancel its siblings), the cache is threaded
through, and the first error in layer order is the one `gather`
propagates. -/
def execLayer (tasks : List (String × PipelineTask α)) (layer : List String)
    (cache : List (String × α)) : List (String × α) × Option RunError :=
  layer.foldl (execStep tasks) (cache, none)

/-- The `for layer in priority_layers:` loop: execute layer by layer; a
raised error aborts the loop, so no task of a later layer is started.  The
third component is the trace of tasks handed to `execute_task`, in start
order. -/
def runLayers (tasks : List (String × PipelineTask α)) :
    List (List String) → List (String × α) → List String →
    List (String × α) × List String × Option RunError
  | [], cache, started => (cache, started, none)
  | layer :: rest, cache, started =>
    let step := execLayer tasks layer cache
    match step.2 with
    | some e => (step.1, started ++ layer, some e)
    | none => runLayers tasks rest step.1 (started ++ layer)

/-- Everything observable about one `run` call: the scheduler afterwards
(`self` is mutated in place, in particular `self.results_cache`), the
returned mapping or raised error, and the trace of started tasks. -/
structure RunResult (α : Type) where
  state : Scheduler α
  result : Except RunError (List (String × α))
  started : List String

/-- `run`: compute the topological order (a cyclic graph raises), build the
layers, execute them in order over the instance's results cache, and on
full success return `self.results_cache`. -/
def run (s : Scheduler α) : RunResult α :=
  if is_directed_acyclic_graph s then
    let out := runLayers s.tasks (buildLayersOf s) s.results_cache []
    match out.2.2 with
    | some e =>
      { state := { s with results_cache := out.1 }, result := .error e,
        started := out.2.1 }
    | none =>
      { state := { s with results_cache := out.1 }, result := .ok out.1,
        started := out.2.1 }
  else { state := s, result := .error .cyclic, started := [] }

/-- The registered names of a task list, in registration order. -/
def regNames (ts : List (PipelineTask α)) : List String :=
  ts.map (fun t => t.name)

/-- The dependency edges a task list declares, in insertion order. -/
def depEdges (ts : List (PipelineTask α)) : List (String × String) :=
  ts.flatMap (fun t => t.dependencies.map (fun d => (d, t.name)))

/-- The scheduler state reached by registering `ts` (distinct names, valid
dependencies) into a fresh scheduler, written out explicitly. -/
def canonState (ts : List (PipelineTask α)) : Scheduler α :=
  { tasks := ts.map (fun t => (t.name, t)), nodes := regNames ts,
    edges := depEdges ts, results_cache := [] }

/-- A task list as the spec's data-model invariants allow it: pairwise
distinct names, per-task duplicate-free and non-self-referential
dependency lists, and every `add_task` call succeeding (which the source
enforces before any `run`). -/
def ValidSetup (ts : List (PipelineTask α)) : Prop :=
  (regNames ts).Nodup ∧
  (∀ t ∈ ts, t.dependencies.Nodup ∧ t.name ∉ t.dependencies) ∧
  (addAll emptyScheduler ts).2 = .ok ()

/-- The scheduler built by registering `ts` into a fresh instance. -/
def sched (ts : List (PipelineTask α)) : Scheduler α :=
  (addAll emptyScheduler ts).1

/-- Every dependency of the i-th registered task names a strictly earlier
registered task (a consequence of `add_task`'s registry check together
with distinct names and no self-reference). -/
def DepsResolved (ts : List (PipelineTask α)) : Prop :=
  ∀ i (hi : i < ts.length), ∀ d ∈ (ts.get ⟨i, hi⟩).dependencies,
    d ∈ regNames (ts.take i)

/-- Index of the layer containing `n` (the list of layers partitions the
task names, so the first hit is the only one). -/
def layerIdx (ls : List (List String)) (n : String) : Nat :=
  ls.findIdx (fun l => l.contains n)

/-! ### Concrete instances used by witnesses and counterexamples -/

/-- A task whose action always succeeds with value 7. -/
def okTask (n : String) (p : Priority) (deps : List String) : PipelineTask Nat :=
  { name := n, function := fun _ _ => .ok 7, priority := p, dependencies := deps }

/-- A task referencing the unregistered name Z. -/
def taskUnknownDep : PipelineTask Nat := okTask "d" .HIGH ["Z"]

/-- Tasks p, q and a re-registration of p that closes the cycle p→q→p. -/
def taskP : PipelineTask Nat := okTask "p" .HIGH []

def taskQ : PipelineTask Nat := okTask "q" .HIGH ["p"]

def taskPcyc : PipelineTask Nat := okTask "p" .HIGH ["q"]

/-- Four same-priority tasks: x depends on b, y on a, registered a,b,x,y. -/
def crossTs : List (PipelineTask Nat) :=
  [okTask "a" .MEDIUM [], okTask "b" .MEDIUM [],
   okTask "x" .MEDIUM ["b"], okTask "y" .MEDIUM ["a"]]

/-- The spec §8 scenario: A LOW and B HIGH independent, C depending on
both. -/
def abcTs : List (PipelineTask Nat) :=
  [okTask "A" .LOW [], okTask "B" .HIGH [], okTask "C" .MEDIUM ["A", "B"]]

/-- A single always-succeeding task. -/
def soloTs : List (PipelineTask Nat) := [okTask "a" .HIGH []]

/-- A task that times out on attempts 0 and 1 and succeeds on attempt 2. -/
def flakyTask : PipelineTask Nat :=
  { name := "r", function := fun i _ => if i < 2 then .error .timeout else .ok 9,
    priority := .HIGH, retries := 3 }

/-- A task whose action fails on every attempt. -/
def failTask : PipelineTask Nat :=
  { name := "f", function := fun _ _ => .error .actionError,
    priority := .HIGH, retries := 3 }

/-- A task constructed with `retries=0`. -/
def zeroRetryTask : PipelineTask Nat :=
  { name := "z", function := fun _ _ => .ok 1, priority := .HIGH, retries := 0 }

/-- A two-layer pipeline whose first task fails permanently: b depends on
the always-failing a. -/
def failPipeTs : List (PipelineTask Nat) :=
  [{ name := "a", function := fun _ _ => .error .actionError,
     priority := .HIGH, dependencies := [], retries := 2 },
   okTask "b" .HIGH ["a"]]

/-- `crossTs` with priorities permuted (x promoted to HIGH, a demoted to
LOW); names and dependency lists unchanged. -/
def crossTsPrio : List (PipelineTask Nat) :=
  [okTask "a" .LOW [], okTask "b" .MEDIUM [],
   okTask "x" .HIGH ["b"], okTask "y" .MEDIUM ["a"]]

/-! ## Lemmas about the retry loop -/

/-- One unfolding of the retry loop on a failed attempt. -/
theorem execLoop_fail_step (t : PipelineTask α) (name : String)
    (cache : List (String × α)) (attempt r : Nat) (e : AttemptErr)
    (h : attemptOnce t cache attempt = .error e) :
    execLoop t name cache attempt (r + 1) =
      { outcome := (execLoop t name cache (attempt + 1) r).outcome,
        cache := (execLoop t name cache (attempt + 1) r).cache,
        invocations := (execLoop t name cache (attempt + 1) r).invocations + 1,
        sleeps :=
          if attempt < t.retries - 1 then
            2 ^ attempt :: (execLoop t name cache (attempt + 1) r).sleeps
          else (execLoop t name cache (attempt + 1) r).sleeps } := by
  simp only [execLoop, h]

/-- A permanent failure means: the reported record names the task and
`task.retries` attempts, the cache is untouched, every attempt in the
window was invoked and failed. -/
theorem execLoop_error_spec (t : PipelineTask α) (name : String)
    (cache : List (String × α)) :
    ∀ remaining attempt p,
      (execLoop t name cache attempt remaining).outcome = .error p →
      p = { name := name, attempts := t.retries } ∧
      (execLoop t name cache attempt remaining).cache = cache ∧
      (execLoop t name cache attempt remaining).invocations = remaining ∧
      ∀ i, attempt ≤ i → i < attempt + remaining →
        ∃ e, attemptOnce t cache i = .error e := by
  intro remaining
  induction remaining with
  | zero =>
    intro attempt p h
    refine ⟨?_, rfl, rfl, ?_⟩
    · simpa [execLoop] using h.symm
    · intro i h1 h2; omega
  | succ r ih =>
    intro attempt p h
    by_cases hok : ∃ v, attemptOnce t cache attempt = .ok v
    · obtain ⟨v, hv⟩ := hok
      simp [execLoop, hv] at h
    · have he : ∃ e, attemptOnce t cache attempt = .error e := by
        cases hA : attemptOnce t cache attempt with
        | ok v => exact absurd ⟨v, hA⟩ hok
        | error e => exact ⟨e, rfl⟩
      obtain ⟨e, hA⟩ := he
      have hout : (execLoop t name cache attempt (r + 1)).outcome =
          (execLoop t name cache (attempt + 1) r).outcome := by
        simp [execLoop, hA]
      obtain ⟨hp, hc, hi, hall⟩ := ih (attempt + 1) p (by rw [← hout]; exact h)
      refine ⟨hp, ?_, ?_, ?_⟩
      · simp [execLoop, hA, hc]
      · simp [execLoop, hA, hi]
      · intro i h1 h2
        rcases Nat.eq_or_lt_of_le h1 with h1' | h1'
        · exact ⟨e, h1' ▸ hA⟩
        · exact hall i h1' (by omega)

/-- When every attempt in the window fails, the loop exhausts it and
raises the permanent failure. -/
theorem execLoop_error_of_allFail (t : PipelineTask α) (name : String)
    (cache : List (String × α)) :
    ∀ remaining attempt,
      (∀ i, attempt ≤ i → i < attempt + remaining →
        ∃ e, attemptOnce t cache i = .error e) →
      (execLoop t name cache attempt remaining).outcome =
        .error { name := name, attempts := t.retries } := by
  intro remaining
  induction remaining with
  | zero => intro attempt _; simp [execLoop]
  | succ r ih =>
    intro attempt hall
    obtain ⟨e, hA⟩ := hall attempt (Nat.le_refl _) (by omega)
    have := ih (attempt + 1) (fun i h1 h2 => hall i (by omega) (by omega))
    simp [execLoop, hA, this]

/-- When every attempt in the window fails and the window reaches exactly
`task.retries`, the backoff sleeps are `2^attempt, …, 2^(retries-2)`: one
sleep after every failed attempt except the last. -/
theorem execLoop_sleeps_of_allFail (t : PipelineTask α) (name : String)
    (cache : List (String × α)) :
    ∀ remaining attempt,
      attempt + remaining = t.retries →
      (∀ i, attempt ≤ i → i < attempt + remaining →
        ∃ e, attemptOnce t cache i = .error e) →
      (execLoop t name cache attempt remaining).sleeps =
        (List.range' attempt (remaining - 1)).map (fun i => 2 ^ i) := by
  intro remaining
  induction remaining with
  | zero => intro attempt _ _; simp [execLoop]
  | succ r ih =>
    intro attempt hsum hall
    obtain ⟨e, hA⟩ := hall attempt (Nat.le_refl _) (by omega)
    have hrest := ih (attempt + 1) (by omega)
      (fun i h1 h2 => hall i (by omega) (by omega))
    cases r with
    | zero =>
      have hcond : ¬ attempt < t.retries - 1 := by omega
      simp [execLoop, hA, hcond]
    | succ r' =>
      have hcond : attempt < t.retries - 1 := by omega
      have hrange : List.range' attempt (r' + 1) = attempt :: List.range' (attempt + 1) r' := by
        simp [List.range'_succ]
      rw [execLoop_fail_step t name cache attempt (r' + 1) e hA]
      simp only [hcond, if_true]
      rw [hrest]
      simp [hrange]

/-- When the attempts before `k` fail and attempt `k` succeeds, the loop
returns the success, stores the result, makes `k+1` invocations counted
from the window start, and sleeps `2^attempt, …, 2^(k-1)`. -/
theorem execLoop_success_spec (t : PipelineTask α) (name : String)
    (cache : List (String × α)) :
    ∀ remaining attempt k v,
      attempt ≤ k → k < attempt + remaining → attempt + remaining = t.retries →
      (∀ i, attempt ≤ i → i < k → ∃ e, attemptOnce t cache i = .error e) →
      attemptOnce t cache k = .ok v →
      execLoop t name cache attempt remaining =
        { outcome := .ok v, cache := dictInsert cache name v,
          invocations := k - attempt + 1,
          sleeps := (List.range' attempt (k - attempt)).map (fun i => 2 ^ i) } := by
  intro remaining
  induction remaining with
  | zero => intro attempt k v h1 h2; omega
  | succ r ih =>
    intro attempt k v h1 h2 hsum hfail hok
    rcases Nat.eq_or_lt_of_le h1 with h1' | h1'
    · subst h1'
      simp [execLoop, hok]
    · obtain ⟨e, hA⟩ := hfail attempt (Nat.le_refl _) h1'
      have hrest := ih (attempt + 1) k v h1' (by omega) (by omega)
        (fun i hi1 hi2 => hfail i (by omega) hi2) hok
      have hcond : attempt < t.retries - 1 := by omega
      have hrange : List.range' attempt (k - attempt) =
          attempt :: List.range' (attempt + 1) (k - (attempt + 1)) := by
        have : k - attempt = (k - (attempt + 1)) + 1 := by omega
        rw [this, List.range'_succ]
      have hinv : k - (attempt + 1) + 1 + 1 = k - attempt + 1 := by omega
      simp [execLoop, hA, hcond, hrest, hrange, hinv]

/-- Success of the retry loop stores the result under the task's name. -/
theorem execLoop_cache_of_ok (t : PipelineTask α) (name : String)
    (cache : List (String × α)) :
    ∀ remaining attempt v,
      (execLoop t name cache attempt remaining).outcome = .ok v →
      (execLoop t name cache attempt remaining).cache = dictInsert cache name v := by
  intro remaining
  induction remaining with
  | zero => intro attempt v h; simp [execLoop] at h
  | succ r ih =>
    intro attempt v h
    cases hA : attemptOnce t cache attempt with
    | ok w =>
      have hv : w = v := by simpa [execLoop, hA] using h
      simp [execLoop, hA, hv]
    | error e =>
      have h' : (execLoop t name cache (attempt + 1) r).outcome = .ok v := by
        simpa [execLoop, hA] using h
      simpa [execLoop, hA] using ih (attempt + 1) v h'

/-! ## Claim theorems about `execute_task` -/

/-- C5: a task whose action fails on every attempt is invoked exactly
`retries` times, stores nothing, sleeps after every attempt but the last,
and raises the permanent failure reporting `attempts = retries`; the
per-attempt errors are consumed by the loop and only the final permanent
failure is surfaced. -/
theorem execute_task_exhausts_retries (tasks : List (String × PipelineTask α))
    (cache : List (String × α)) (task_name : String) (t : PipelineTask α)
    (hfind : dictFind task_name tasks = some t)
    (hfail : ∀ i, i < t.retries → ∃ e, attemptOnce t cache i = .error e) :
    execute_task tasks cache task_name =
      some { outcome := .error { name := task_name, attempts := t.retries },
             cache := cache, invocations := t.retries,
             sleeps := (List.range (t.retries - 1)).map (fun i => 2 ^ i) } := by
  have hwin : ∀ i, 0 ≤ i → i < 0 + t.retries → ∃ e, attemptOnce t cache i = .error e :=
    fun i _ hi => hfail i (by omega)
  have hout := execLoop_error_of_allFail t task_name cache t.retries 0 hwin
  obtain ⟨-, hc, hi, -⟩ := execLoop_error_spec t task_name cache t.retries 0 _ hout
  have hs := execLoop_sleeps_of_allFail t task_name cache t.retries 0 (by omega) hwin
  have heta : execLoop t task_name cache 0 t.retries =
      { outcome := (execLoop t task_name cache 0 t.retries).outcome,
        cache := (execLoop t task_name cache 0 t.retries).cache,
        invocations := (execLoop t task_name cache 0 t.retries).invocations,
        sleeps := (execLoop t task_name cache 0 t.retries).sleeps } := rfl
  simp only [execute_task, hfind, Option.map_some']
  rw [heta, hout, hc, hi, hs, List.range_eq_range']

/-- Witness for C5: the always-failing task with `retries=3` is invoked 3
times, sleeps 1 then 2, and fails permanently reporting 3 attempts. -/
theorem execute_task_exhausts_retries_witness :
    dictFind "f" [("f", failTask)] = some failTask ∧
    execute_task [("f", failTask)] ([] : List (String × Nat)) "f" =
      some { outcome := .error { name := "f", attempts := failTask.retries },
             cache := [], invocations := failTask.retries,
             sleeps := (List.range (failTask.retries - 1)).map (fun i => 2 ^ i) } :=
  ⟨rfl, execute_task_exhausts_retries [("f", failTask)] [] "f" failTask rfl
    (fun _ _ => ⟨.actionError, rfl⟩)⟩

/-- C8: after every failed attempt that is followed by another attempt the
loop sleeps `2^i` time units (`i` the 0-based attempt index), and no sleep
follows the final attempt: if attempts `0..k-1` fail and the run ends at
`k` (success there, or `k = retries` exhausting the budget), the sleeps
are exactly `2^0, …, 2^(min k (retries-1) - 1)`. -/
theorem execute_task_backoff (tasks : List (String × PipelineTask α))
    (cache : List (String × α)) (task_name : String) (t : PipelineTask α) (k : Nat)
    (hfind : dictFind task_name tasks = some t)
    (hk : k ≤ t.retries)
    (hfail : ∀ i, i < k → ∃ e, attemptOnce t cache i = .error e)
    (hterm : k = t.retries ∨ ∃ v, attemptOnce t cache k = .ok v) :
    ∃ r, execute_task tasks cache task_name = some r ∧
      r.sleeps = (List.range (min k (t.retries - 1))).map (fun i => 2 ^ i) := by
  refine ⟨execLoop t task_name cache 0 t.retries, by simp [execute_task, hfind], ?_⟩
  rcases Nat.lt_or_ge k t.retries with hlt | hge
  · rcases hterm with hterm | ⟨v, hv⟩
    · omega
    · have := execLoop_success_spec t task_name cache t.retries 0 k v (by omega)
        (by omega) (by omega) (fun i _ hi => hfail i hi) hv
      rw [this]
      have hmin : min k (t.retries - 1) = k := by omega
      simp [hmin, List.range_eq_range']
  · have hkeq : k = t.retries := by omega
    have hs := execLoop_sleeps_of_allFail t task_name cache t.retries 0 (by omega)
      (fun i _ hi => hfail i (by omega))
    rw [hs]
    have hmin : min k (t.retries - 1) = t.retries - 1 := by omega
    simp [hmin, List.range_eq_range']

/-- Witness for C8: the `retries=3` task failing on attempts 0 and 1 and
succeeding on attempt 2 observes backoff delays 1 then 2. -/
theorem execute_task_backoff_witness :
    (∀ i, i < 2 → ∃ e, attemptOnce flakyTask ([] : List (String × Nat)) i = .error e) ∧
    (∃ r, execute_task [("r", flakyTask)] ([] : List (String × Nat)) "r" = some r ∧
      r.sleeps = (List.range (min 2 (flakyTask.retries - 1))).map (fun i => 2 ^ i)) := by
  have hf : ∀ i, i < 2 → ∃ e, attemptOnce flakyTask ([] : List (String × Nat)) i = .error e := by
    intro i hi
    exact ⟨.timeout, by simp [attemptOnce, flakyTask, resolveDeps, hi]⟩
  exact ⟨hf, execute_task_backoff [("r", flakyTask)] [] "r" flakyTask 2 rfl
    (by decide) hf (Or.inr ⟨9, rfl⟩)⟩

/-- C9: one `execute_task` call touches at most the single cache key named
by the task: a permanent failure (every attempt having failed) leaves the
results cache exactly as it was, and a success adds exactly the task's own
entry. -/
theorem execute_task_cache_discipline (tasks : List (String × PipelineTask α))
    (cache : List (String × α)) (task_name : String) (t : PipelineTask α)
    (hfind : dictFind task_name tasks = some t) :
    ∃ r, execute_task tasks cache task_name = some r ∧
      (∀ p, r.outcome = .error p → r.cache = cache) ∧
      (∀ v, r.outcome = .ok v → r.cache = dictInsert cache task_name v) := by
  refine ⟨execLoop t task_name cache 0 t.retries, by simp [execute_task, hfind], ?_, ?_⟩
  · intro p hp
    exact (execLoop_error_spec t task_name cache t.retries 0 p hp).2.1
  · intro v hv
    exact execLoop_cache_of_ok t task_name cache t.retries 0 v hv

/-- Witness for C9: instantiated on the always-succeeding solo task. -/
theorem execute_task_cache_discipline_witness :
    dictFind "a" [("a", okTask "a" .HIGH [])] = some (okTask "a" .HIGH []) ∧
    (∃ r, execute_task [("a", okTask "a" .HIGH [])] ([] : List (String × Nat)) "a" = some r ∧
      (∀ p, r.outcome = .error p → r.cache = []) ∧
      (∀ v, r.outcome = .ok v → r.cache = dictInsert [] "a" v)) :=
  ⟨rfl, execute_task_cache_discipline [("a", okTask "a" .HIGH [])] [] "a"
    (okTask "a" .HIGH []) rfl⟩

/-- C10: a task constructed with `retries=0` performs no attempt at all —
the action is never invoked, nothing sleeps, the cache is untouched — and
`execute_task` immediately raises the permanent failure reporting 0
attempts. -/
theorem execute_task_zero_retries (tasks : List (String × PipelineTask α))
    (cache : List (String × α)) (task_name : String) (t : PipelineTask α)
    (hfind : dictFind task_name tasks = some t) (h0 : t.retries = 0) :
    execute_task tasks cache task_name =
      some { outcome := .error { name := task_name, attempts := 0 },
             cache := cache, invocations := 0, sleeps := [] } := by
  simp [execute_task, hfind, h0, execLoop]

/-- Witness for C10: the concrete `retries=0` task. -/
theorem execute_task_zero_retries_witness :
    dictFind "z" [("z", zeroRetryTask)] = some zeroRetryTask ∧
    zeroRetryTask.retries = 0 ∧
    execute_task [("z", zeroRetryTask)] ([] : List (String × Nat)) "z" =
      some { outcome := .error { name := "z", attempts := 0 },
             cache := [], invocations := 0, sleeps := [] } :=
  ⟨rfl, rfl, execute_task_zero_retries [("z", zeroRetryTask)] [] "z" zeroRetryTask rfl rfl⟩

/-! ## Lemmas about `add_task` -/

/-- `add_node` does not touch the registry. -/
theorem addNode_tasks (s : Scheduler α) (n : String) : (addNode s n).tasks = s.tasks := by
  unfold addNode; split <;> rfl

/-- `add_edge` does not touch the registry. -/
theorem addEdge_tasks (s : Scheduler α) (u v : String) : (addEdge s u v).tasks = s.tasks := by
  simp only [addEdge]
  split <;> simp [addNode_tasks]

/-- A present node stays present under `add_node`. -/
theorem addNode_mem (s : Scheduler α) (n m : String) (h : m ∈ s.nodes) :
    m ∈ (addNode s n).nodes := by
  unfold addNode; split
  · exact h
  · exact List.mem_append_left _ h

/-- `add_node` makes its argument present. -/
theorem addNode_mem_self (s : Scheduler α) (n : String) : n ∈ (addNode s n).nodes := by
  unfold addNode; split
  · next h => simpa using h
  · simp

/-- A present node stays present under `add_edge`. -/
theorem addEdge_mem_node (s : Scheduler α) (u v m : String) (h : m ∈ s.nodes) :
    m ∈ (addEdge s u v).nodes := by
  simp only [addEdge]
  split <;> exact addNode_mem _ _ _ (addNode_mem _ _ _ h)

/-- A present edge stays present under `add_edge`. -/
theorem addEdge_mem_edge (s : Scheduler α) (u v : String) (e : String × String)
    (h : e ∈ s.edges) : e ∈ (addEdge s u v).edges := by
  have hn : e ∈ (addNode (addNode s u) v).edges := by
    unfold addNode
    split <;> (try split) <;> simpa
  simp only [addEdge]
  split
  · exact hn
  · exact List.mem_append_left _ hn

/-- `add_edge` makes its edge present. -/
theorem addEdge_mem_self (s : Scheduler α) (u v : String) :
    (u, v) ∈ (addEdge s u v).edges := by
  simp only [addEdge]
  split
  · next h => simpa using h
  · simp

/-- The dependency-edge loop never touches the registry. -/
theorem addDepEdges_tasks (tname : String) :
    ∀ (deps : List String) (s : Scheduler α),
      (addDepEdges s tname deps).1.tasks = s.tasks := by
  intro deps
  induction deps with
  | nil => intro s; rfl
  | cons d rest ih =>
    intro s
    unfold addDepEdges
    split
    · rw [ih, addEdge_tasks]
    · rfl

/-- The dependency-edge loop preserves node membership. -/
theorem addDepEdges_mem_node (tname m : String) :
    ∀ (deps : List String) (s : Scheduler α), m ∈ s.nodes →
      m ∈ (addDepEdges s tname deps).1.nodes := by
  intro deps
  induction deps with
  | nil => intro s h; exact h
  | cons d rest ih =>
    intro s h
    unfold addDepEdges
    split
    · exact ih _ (addEdge_mem_node _ _ _ _ h)
    · exact h

/-- The dependency-edge loop preserves edge membership. -/
theorem addDepEdges_mem_edge (tname : String) (e : String × String) :
    ∀ (deps : List String) (s : Scheduler α), e ∈ s.edges →
      e ∈ (addDepEdges s tname deps).1.edges := by
  intro deps
  induction deps with
  | nil => intro s h; exact h
  | cons d rest ih =>
    intro s h
    unfold addDepEdges
    split
    · exact ih _ (addEdge_mem_edge _ _ _ _ h)
    · exact h

/-- The dependency-edge loop raises `UnknownDependency` (for some
dependency) exactly when one of the dependencies is missing from the
registry, and that is the only error it can raise. -/
theorem addDepEdges_error_iff (tname : String) :
    ∀ (deps : List String) (s : Scheduler α),
      ((∃ d, (addDepEdges s tname deps).2 = .error (.unknownDependency d)) ↔
        ∃ d ∈ deps, dictFind d s.tasks = none) ∧
      (addDepEdges s tname deps).2 ≠ .error .cycleDetected := by
  intro deps
  induction deps with
  | nil =>
    intro s
    constructor
    · simp [addDepEdges]
    · simp [addDepEdges]
  | cons d rest ih =>
    intro s
    unfold addDepEdges
    split
    · next hpres =>
      obtain ⟨ih1, ih2⟩ := ih (addEdge s d tname)
      rw [addEdge_tasks] at ih1
      constructor
      · rw [ih1]
        constructor
        · rintro ⟨d', hd', hnone⟩
          exact ⟨d', List.mem_cons_of_mem _ hd', hnone⟩
        · rintro ⟨d', hd', hnone⟩
          rcases List.mem_cons.mp hd' with h | h
          · subst h
            rw [hnone] at hpres
            simp at hpres
          · exact ⟨d', h, hnone⟩
      · exact ih2
    · next hmiss =>
      have hnone : dictFind d s.tasks = none := by
        cases h : dictFind d s.tasks with
        | none => rfl
        | some t => rw [h] at hmiss; simp at hmiss
      constructor
      · simp only []
        constructor
        · intro _; exact ⟨d, List.mem_cons_self d rest, hnone⟩
        · intro _; exact ⟨d, rfl⟩
      · simp

/-- When every dependency is registered the loop succeeds and all its
edges are present afterwards. -/
theorem addDepEdges_ok (tname : String) :
    ∀ (deps : List String) (s : Scheduler α),
      (∀ d ∈ deps, (dictFind d s.tasks).isSome) →
      (addDepEdges s tname deps).2 = .ok () ∧
      ∀ d ∈ deps, (d, tname) ∈ (addDepEdges s tname deps).1.edges := by
  intro deps
  induction deps with
  | nil => intro s _; exact ⟨rfl, by simp⟩
  | cons d rest ih =>
    intro s hall
    have hd : (dictFind d s.tasks).isSome := hall d (List.mem_cons_self d rest)
    unfold addDepEdges
    split
    · next hpres =>
      obtain ⟨ihok, ihmem⟩ := ih (addEdge s d tname)
        (by intro d' hd'; rw [addEdge_tasks]; exact hall d' (List.mem_cons_of_mem _ hd'))
      refine ⟨ihok, ?_⟩
      intro d' hd'
      rcases List.mem_cons.mp hd' with h | h
      · subst h
        exact addDepEdges_mem_edge tname (d', tname) rest _ (addEdge_mem_self s d' tname)
      · exact ihmem d' h
    · next hmiss => exact absurd hd hmiss

/-! ## Claim theorems about `add_task` -/


/-- C1 (amended): `add_task` raises `UnknownDependency` exactly when some
declared dependency is missing from the registry (checked after the task
itself has been stored, so a self-dependency passes this check), and
raises `CycleDetected` exactly when all dependencies are registered but
the graph with the task's edges inserted is cyclic.  The rejection is not
atomic: whatever the outcome, the registry holds the new task entry and
the graph its node, and on `CycleDetected` every one of the task's edges
remains inserted. -/
theorem add_task_error_cases (s : Scheduler α) (t : PipelineTask α) :
    (add_task s t).1.tasks = dictInsert s.tasks t.name t ∧
    t.name ∈ (add_task s t).1.nodes ∧
    ((∃ d, (add_task s t).2 = .error (.unknownDependency d)) ↔
      ∃ d ∈ t.dependencies, dictFind d (dictInsert s.tasks t.name t) = none) ∧
    ((add_task s t).2 = .error .cycleDetected ↔
      ((∀ d ∈ t.dependencies, (dictFind d (dictInsert s.tasks t.name t)).isSome) ∧
        is_directed_acyclic_graph (add_task s t).1 = false)) ∧
    ((add_task s t).2 = .error .cycleDetected →
      ∀ d ∈ t.dependencies, (d, t.name) ∈ (add_task s t).1.edges) := by
  have htasks1 : (addNode { s with tasks := dictInsert s.tasks t.name t } t.name).tasks =
      dictInsert s.tasks t.name t := by rw [addNode_tasks]
  rcases hP : addDepEdges (addNode { s with tasks := dictInsert s.tasks t.name t } t.name)
      t.name t.dependencies with ⟨s2, r⟩
  have hP1 : (addDepEdges (addNode { s with tasks := dictInsert s.tasks t.name t } t.name)
      t.name t.dependencies).1 = s2 := by rw [hP]
  have hP2 : (addDepEdges (addNode { s with tasks := dictInsert s.tasks t.name t } t.name)
      t.name t.dependencies).2 = r := by rw [hP]
  obtain ⟨hiff, hnocycle⟩ := addDepEdges_error_iff (α := α) t.name t.dependencies
    (addNode { s with tasks := dictInsert s.tasks t.name t } t.name)
  rw [hP2, htasks1] at hiff
  rw [hP2] at hnocycle
  have hnode : t.name ∈ s2.nodes := by
    have := addDepEdges_mem_node (α := α) t.name t.name t.dependencies
      (addNode { s with tasks := dictInsert s.tasks t.name t } t.name)
      (addNode_mem_self _ _)
    rw [hP1] at this
    exact this
  have htasks2 : s2.tasks = dictInsert s.tasks t.name t := by
    rw [← hP1, addDepEdges_tasks, htasks1]
  have hadd : add_task s t =
      (match (s2, r) with
       | (s2', Except.error e) => (s2', Except.error e)
       | (s2', Except.ok ()) =>
         if is_directed_acyclic_graph s2' then (s2', Except.ok ())
         else (s2', Except.error SchedErr.cycleDetected)) := by
    simp only [add_task]
    rw [hP]
  cases r with
  | error e =>
    have hadd' : add_task s t = (s2, Except.error e) := by rw [hadd]
    have hne : e ≠ SchedErr.cycleDetected := by
      intro he
      exact hnocycle (by rw [he])
    refine ⟨by rw [hadd']; exact htasks2, by rw [hadd']; exact hnode, ?_, ?_, ?_⟩
    · rw [hadd']
      simpa using hiff
    · rw [hadd']
      constructor
      · intro h
        exact absurd (by simpa using h) hne
      · rintro ⟨hall, -⟩
        cases e with
        | cycleDetected => exact absurd rfl hne
        | unknownDependency d =>
          obtain ⟨d', hd', hnone⟩ := hiff.mp ⟨d, rfl⟩
          have := hall d' hd'
          rw [hnone] at this
          simp at this
    · rw [hadd']
      intro h
      exact absurd (by simpa using h) hne
  | ok u =>
    cases u
    have hallpres : ∀ d ∈ t.dependencies,
        (dictFind d (dictInsert s.tasks t.name t)).isSome := by
      intro d hd
      by_contra hnot
      have hnone : dictFind d (dictInsert s.tasks t.name t) = none := by
        cases h : dictFind d (dictInsert s.tasks t.name t) with
        | none => rfl
        | some v => rw [h] at hnot; simp at hnot
      obtain ⟨d', hd'⟩ := hiff.mpr ⟨d, hd, hnone⟩
      simp at hd'
    have hedges : ∀ d ∈ t.dependencies, (d, t.name) ∈ s2.edges := by
      have := addDepEdges_ok (α := α) t.name t.dependencies
        (addNode { s with tasks := dictInsert s.tasks t.name t } t.name)
        (by rw [htasks1]; exact hallpres)
      rw [hP1] at this
      exact this.2
    cases hD : is_directed_acyclic_graph s2 with
    | true =>
      have hadd' : add_task s t = (s2, Except.ok ()) := by
        rw [hadd]
        simp [hD]
      refine ⟨by rw [hadd']; exact htasks2, by rw [hadd']; exact hnode, ?_, ?_, ?_⟩
      · rw [hadd']
        constructor
        · rintro ⟨d, hd⟩; simp at hd
        · rintro ⟨d, hd, hnone⟩
          have := hallpres d hd
          rw [hnone] at this
          simp at this
      · rw [hadd']
        constructor
        · intro h; simp at h
        · rintro ⟨-, hfalse⟩
          rw [hD] at hfalse
          simp at hfalse
      · rw [hadd']
        intro h
        simp at h
    | false =>
      have hadd' : add_task s t = (s2, Except.error SchedErr.cycleDetected) := by
        rw [hadd]
        simp [hD]
      refine ⟨by rw [hadd']; exact htasks2, by rw [hadd']; exact hnode, ?_, ?_, ?_⟩
      · rw [hadd']
        constructor
        · rintro ⟨d, hd⟩; simp at hd
        · rintro ⟨d, hd, hnone⟩
          have := hallpres d hd
          rw [hnone] at this
          simp at this
      · rw [hadd']
        exact ⟨fun _ => ⟨hallpres, hD⟩, fun _ => rfl⟩
      · rw [hadd']
        intro _
        exact hedges

/-- Witness for the amended C1: re-registering p with a dependency on q
closes the cycle p→q→p, and the theorem's cycle case classifies it. -/
theorem add_task_error_cases_witness :
    (add_task (addAll emptyScheduler [taskP, taskQ]).1 taskPcyc).2 =
      .error .cycleDetected :=
  (add_task_error_cases (addAll emptyScheduler [taskP, taskQ]).1 taskPcyc).2.2.2.1.mpr
    ⟨by decide, by decide⟩

/-- Counterexample to C1 as stated: `add_task` on a fresh scheduler with a
task naming the unregistered dependency Z raises `UnknownDependency` but
does not leave the registry and graph as they were — the task entry and
its node persist. -/
theorem add_task_rejection_not_atomic_cex :
    (add_task (emptyScheduler : Scheduler Nat) taskUnknownDep).2 =
      .error (.unknownDependency "Z") ∧
    (emptyScheduler : Scheduler Nat).nodes = [] ∧
    (add_task (emptyScheduler : Scheduler Nat) taskUnknownDep).1.nodes = ["d"] ∧
    (emptyScheduler : Scheduler Nat).tasks = [] ∧
    dictKeys (add_task (emptyScheduler : Scheduler Nat) taskUnknownDep).1.tasks = ["d"] := by
  refine ⟨rfl, rfl, rfl, rfl, rfl⟩

/-! ## The canonical state reached by successful registration -/

/-- Keys of the canonical registry are the registered names. -/
theorem dictKeys_canon (ts : List (PipelineTask α)) :
    dictKeys (ts.map (fun t => (t.name, t))) = regNames ts := by
  simp [dictKeys, regNames]

/-- Assignment of a fresh key appends it. -/
theorem dictInsert_append (l : List (String × β)) (k : String) (v : β)
    (h : k ∉ dictKeys l) : dictInsert l k v = l ++ [(k, v)] := by
  induction l with
  | nil => rfl
  | cons p rest ih =>
    simp only [dictKeys, List.map_cons, List.mem_cons] at h
    push_neg at h
    simp only [dictInsert]
    rw [if_neg (Ne.symm h.1), ih (by simpa [dictKeys] using h.2)]
    rfl

/-- A lookup succeeds exactly for present keys. -/
theorem dictFind_isSome_iff (k : String) (l : List (String × β)) :
    (dictFind k l).isSome ↔ k ∈ dictKeys l := by
  induction l with
  | nil => simp [dictFind, dictKeys]
  | cons p rest ih =>
    simp only [dictFind, dictKeys, List.map_cons, List.mem_cons]
    by_cases h : p.1 = k
    · simp [h]
    · simp only [if_neg h]
      rw [ih]
      simp [dictKeys, Ne.symm h]

/-- `regNames` distributes over append. -/
theorem regNames_append (a b : List (PipelineTask α)) :
    regNames (a ++ b) = regNames a ++ regNames b := by
  simp [regNames]

/-- `depEdges` distributes over append. -/
theorem depEdges_append (a b : List (PipelineTask α)) :
    depEdges (a ++ b) = depEdges a ++ depEdges b := by
  simp [depEdges]

/-- Every declared dependency edge ends at a registered name. -/
theorem depEdges_target (ts : List (PipelineTask α)) (e : String × String)
    (h : e ∈ depEdges ts) : e.2 ∈ regNames ts := by
  simp only [depEdges, List.mem_flatMap] at h
  obtain ⟨t, ht, he⟩ := h
  simp only [List.mem_map] at he
  obtain ⟨d, -, he⟩ := he
  subst he
  exact List.mem_map_of_mem _ ht

/-- Re-adding a present node is the identity. -/
theorem addNode_of_mem (s : Scheduler α) (n : String) (h : n ∈ s.nodes) :
    addNode s n = s := by
  unfold addNode
  rw [if_pos (by simpa using h)]

/-- On a state whose nodes already contain the endpoints and whose edges
do not yet contain any of the dependency edges, the edge loop (with every
dependency registered) only appends those edges, in order. -/
theorem addDepEdges_canonical (tname : String) :
    ∀ (deps : List String) (s : Scheduler α),
      deps.Nodup →
      (∀ d ∈ deps, d ∈ s.nodes) →
      tname ∈ s.nodes →
      (∀ d ∈ deps, (d, tname) ∉ s.edges) →
      (∀ d ∈ deps, (dictFind d s.tasks).isSome) →
      (addDepEdges s tname deps).1 =
        { s with edges := s.edges ++ deps.map (fun d => (d, tname)) } := by
  intro deps
  induction deps with
  | nil => intro s _ _ _ _ _; simp [addDepEdges]
  | cons d rest ih =>
    intro s hnodup hnode htn hedge hfind
    have hd : (dictFind d s.tasks).isSome := hfind d (List.mem_cons_self d rest)
    have hE : addEdge s d tname = { s with edges := s.edges ++ [(d, tname)] } := by
      unfold addEdge
      rw [addNode_of_mem s d (hnode d (List.mem_cons_self d rest)), addNode_of_mem s tname htn]
      rw [if_neg (by simpa using hedge d (List.mem_cons_self d rest))]
    unfold addDepEdges
    rw [if_pos hd]
    rw [hE] at *
    rw [ih { s with edges := s.edges ++ [(d, tname)] } (List.Nodup.of_cons hnodup)
      (fun d' hd' => hnode d' (List.mem_cons_of_mem _ hd'))
      htn
      ?_
      (fun d' hd' => hfind d' (List.mem_cons_of_mem _ hd'))]
    · simp
    · intro d' hd'
      simp only [List.mem_append, List.mem_singleton]
      push_neg
      refine ⟨hedge d' (List.mem_cons_of_mem _ hd'), ?_⟩
      intro hcontra
      have : d' = d := by simpa using congrArg Prod.fst hcontra
      exact (List.nodup_cons.mp hnodup).1 (this ▸ hd')

/-- One successful `add_task` on a canonical state: the result is the
canonical state extended by the task, each dependency was already
registered, and the extended graph passed the acyclicity check. -/
theorem add_task_step (done : List (PipelineTask α)) (t : PipelineTask α)
    (hnodup : (regNames (done ++ [t])).Nodup)
    (hdnodup : t.dependencies.Nodup) (hself : t.name ∉ t.dependencies)
    (hok : (add_task (canonState done) t).2 = .ok ()) :
    (add_task (canonState done) t).1 = canonState (done ++ [t]) ∧
    (∀ d ∈ t.dependencies, d ∈ regNames done) ∧
    is_directed_acyclic_graph (canonState (done ++ [t])) = true := by
  have hfresh : t.name ∉ regNames done := by
    rw [regNames_append] at hnodup
    simp only [List.nodup_append] at hnodup
    intro h
    exact hnodup.2.2 h (by simp [regNames])
  have hs1 : addNode { canonState done with
        tasks := dictInsert (canonState done).tasks t.name t } t.name =
      { tasks := (done ++ [t]).map (fun t' => (t'.name, t')),
        nodes := regNames (done ++ [t]), edges := depEdges done,
        results_cache := [] } := by
    unfold addNode
    rw [if_neg (by simpa [canonState] using hfresh)]
    simp [canonState, regNames_append,
      dictInsert_append _ _ _ (by rw [dictKeys_canon]; exact hfresh), regNames]
  rcases hP : addDepEdges (addNode { canonState done with
      tasks := dictInsert (canonState done).tasks t.name t } t.name)
      t.name t.dependencies with ⟨s2, r⟩
  have hP2 : (addDepEdges (addNode { canonState done with
      tasks := dictInsert (canonState done).tasks t.name t } t.name)
      t.name t.dependencies).2 = r := by rw [hP]
  obtain ⟨hiff, -⟩ := addDepEdges_error_iff (α := α) t.name t.dependencies
    (addNode { canonState done with
      tasks := dictInsert (canonState done).tasks t.name t } t.name)
  rw [hP2] at hiff
  cases r with
  | error e =>
    have hadd : add_task (canonState done) t = (s2, Except.error e) := by
      simp only [add_task]
      rw [hP]
    rw [hadd] at hok
    simp at hok
  | ok u =>
    cases u
    have hadd : add_task (canonState done) t =
        (if is_directed_acyclic_graph s2 then (s2, Except.ok ())
         else (s2, Except.error SchedErr.cycleDetected)) := by
      simp only [add_task]
      rw [hP]
    have hpres : ∀ d ∈ t.dependencies,
        (dictFind d (addNode { canonState done with
          tasks := dictInsert (canonState done).tasks t.name t } t.name).tasks).isSome := by
      intro d hd
      by_contra hnot
      have hnone : dictFind d (addNode { canonState done with
          tasks := dictInsert (canonState done).tasks t.name t } t.name).tasks = none := by
        cases h : dictFind d (addNode { canonState done with
            tasks := dictInsert (canonState done).tasks t.name t } t.name).tasks with
        | none => rfl
        | some v => rw [h] at hnot; simp at hnot
      obtain ⟨d', hd'⟩ := hiff.mpr ⟨d, hd, hnone⟩
      simp at hd'
    have hdepdone : ∀ d ∈ t.dependencies, d ∈ regNames done := by
      intro d hd
      have := hpres d hd
      rw [dictFind_isSome_iff] at this
      rw [hs1] at this
      simp only [dictKeys_canon, regNames_append] at this
      rcases List.mem_append.mp this with h | h
      · exact h
      · simp only [regNames, List.map_cons, List.map_nil, List.mem_singleton] at h
        exact absurd (h ▸ hd) hself
    have hcanon : s2 = canonState (done ++ [t]) := by
      have := addDepEdges_canonical (α := α) t.name t.dependencies
        (addNode { canonState done with
          tasks := dictInsert (canonState done).tasks t.name t } t.name)
        hdnodup
        (by intro d hd; rw [hs1]; simp only []
            rw [regNames_append]
            exact List.mem_append_left _ (hdepdone d hd))
        (by rw [hs1]; simp only []
            rw [regNames_append]
            exact List.mem_append_right _ (by simp [regNames]))
        (by intro d hd
            rw [hs1]
            simp only []
            intro hmem
            exact hfresh (by simpa using depEdges_target done (d, t.name) hmem))
        hpres
      rw [hP] at this
      simp only [] at this
      rw [this, hs1]
      simp [canonState, depEdges_append, depEdges, regNames]
    rw [hadd] at hok
    cases hD : is_directed_acyclic_graph s2 with
    | false => rw [hD] at hok; simp at hok
    | true =>
      refine ⟨?_, hdepdone, by rw [← hcanon]; exact hD⟩
      rw [hadd, hD]
      simpa using hcanon

/-- Registering a valid suffix onto a canonical prefix yields the
canonical state of the concatenation; every dependency resolves to a
strictly earlier registration, and (unless nothing was added) the final
graph passed the acyclicity check. -/
theorem addAll_characterize :
    ∀ (rest done : List (PipelineTask α)),
      (regNames (done ++ rest)).Nodup →
      (∀ t' ∈ rest, t'.dependencies.Nodup ∧ t'.name ∉ t'.dependencies) →
      (addAll (canonState done) rest).2 = .ok () →
      (addAll (canonState done) rest).1 = canonState (done ++ rest) ∧
      (∀ i (hi : i < rest.length), ∀ d ∈ (rest.get ⟨i, hi⟩).dependencies,
        d ∈ regNames (done ++ rest.take i)) ∧
      (rest = [] ∨ is_directed_acyclic_graph (canonState (done ++ rest)) = true) := by
  intro rest
  induction rest with
  | nil =>
    intro done _ _ _
    refine ⟨by simp [addAll], ?_, Or.inl rfl⟩
    intro i hi
    simp at hi
  | cons t rest2 ih =>
    intro done hnodup hvalid hok
    rcases hA : add_task (canonState done) t with ⟨s', r⟩
    have hA1 : (add_task (canonState done) t).1 = s' := by rw [hA]
    have hA2 : (add_task (canonState done) t).2 = r := by rw [hA]
    have haddAll : addAll (canonState done) (t :: rest2) =
        (match (s', r) with
         | (s'', Except.ok ()) => addAll s'' rest2
         | (s'', Except.error e) => (s'', Except.error e)) := by
      simp only [addAll]
      rw [hA]
    cases r with
    | error e =>
      rw [haddAll] at hok
      simp at hok
    | ok u =>
      cases u
      rw [haddAll] at hok
      simp only [] at hok
      have hnodup1 : (regNames ((done ++ [t]) ++ rest2)).Nodup := by
        simpa using hnodup
      have hstep := add_task_step done t
        (List.Nodup.sublist
          (by rw [regNames_append (done ++ [t]) rest2]
              exact List.sublist_append_left _ _) hnodup1)
        (hvalid t (List.mem_cons_self _ _)).1
        (hvalid t (List.mem_cons_self _ _)).2
        (by rw [hA2])
      rw [hA1] at hstep
      obtain ⟨hs', hdeps, hdag1⟩ := hstep
      subst hs'
      obtain ⟨hstate, hresolve, hdag⟩ := ih (done ++ [t]) (by simpa using hnodup)
        (fun t' ht' => hvalid t' (List.mem_cons_of_mem _ ht')) hok
      refine ⟨by rw [haddAll]; simpa using hstate, ?_, ?_⟩
      · intro i hi
        cases i with
        | zero =>
          intro d hd
          simpa using hdeps d (by simpa using hd)
        | succ j =>
          intro d hd
          have := hresolve j (by simpa using hi) d (by simpa using hd)
          simpa using this
      · right
        rcases hdag with h | h
        · subst h
          simpa using hdag1
        · simpa using h

/-- The state built by a valid registration sequence is the canonical
state, dependencies resolve backwards, and the final graph is acyclic. -/
theorem sched_canonical (ts : List (PipelineTask α)) (h : ValidSetup ts) :
    sched ts = canonState ts ∧ DepsResolved ts ∧
    is_directed_acyclic_graph (canonState (α := α) ts) = true := by
  obtain ⟨hnodup, hvalid, hok⟩ := h
  have hempty : (emptyScheduler : Scheduler α) = canonState [] := rfl
  rw [hempty] at hok
  obtain ⟨hstate, hresolve, hdag⟩ := addAll_characterize ts []
    (by simpa using hnodup) hvalid hok
  refine ⟨?_, ?_, ?_⟩
  · rw [sched, hempty]
    simpa using hstate
  · intro i hi d hd
    simpa using hresolve i hi d hd
  · rcases hdag with h | h
    · subst h
      rfl
    · simpa using h

/-! ## The topological sort covers the nodes of an acyclic graph -/

/-- Keys after deletion. -/
theorem dictKeys_erase (m : List (String × β)) (k : String) :
    dictKeys (dictErase m k) = (dictKeys m).filter (fun x => x ≠ k) := by
  induction m with
  | nil => rfl
  | cons p rest ih =>
    simp only [dictErase, dictKeys, List.filter] at *
    by_cases h : p.1 = k
    · simp [h] at *
      exact ih
    · simp [h] at *
      exact ih

/-- Updating a value keeps the keys. -/
theorem dictKeys_update (m : List (String × β)) (k : String) (v : β) :
    dictKeys (dictUpdate m k v) = dictKeys m := by
  induction m with
  | nil => rfl
  | cons p rest ih =>
    simp only [dictUpdate, dictKeys, List.map_cons] at *
    by_cases h : p.1 = k
    · simp [h, ih]
    · simp [h, ih]

/-- The invariant of Kahn's algorithm that we track: distinct map keys,
distinct pending nodes, and no pending node still in the map. -/
def KahnInv (m : List (String × Nat)) (z : List String) : Prop :=
  (dictKeys m).Nodup ∧ z.Nodup ∧ ∀ x ∈ z, x ∉ dictKeys m

/-- One child decrement preserves the invariant; keys only shrink and the
pending list only grows by former keys. -/
theorem decChild_spec (m : List (String × Nat)) (z : List String) (c : String)
    (h : KahnInv m z) :
    KahnInv (decChild m z c).1 (decChild m z c).2 ∧
    (∀ x ∈ dictKeys (decChild m z c).1, x ∈ dictKeys m) ∧
    (∀ x ∈ (decChild m z c).2, x ∈ z ∨ x ∈ dictKeys m) := by
  obtain ⟨hm, hz, hdisj⟩ := h
  unfold decChild
  cases hf : dictFind c m with
  | none => exact ⟨⟨hm, hz, hdisj⟩, fun x hx => hx, fun x hx => Or.inl hx⟩
  | some cnt =>
    have hcmem : c ∈ dictKeys m := by
      rw [← dictFind_isSome_iff]
      rw [hf]
      rfl
    by_cases hc : cnt - 1 = 0
    · simp only [hc, if_true]
      refine ⟨⟨?_, ?_, ?_⟩, ?_, ?_⟩
      · rw [dictKeys_erase]
        exact hm.filter _
      · refine List.Nodup.append hz (by simp) ?_
        intro x hx hx'
        simp only [List.mem_singleton] at hx'
        subst hx'
        exact hdisj x hx hcmem
      · intro x hx
        rw [dictKeys_erase, List.mem_filter]
        rcases List.mem_append.mp hx with h | h
        · rintro ⟨hh, -⟩
          exact hdisj x h hh
        · simp only [List.mem_singleton] at h
          subst h
          rintro ⟨-, hh⟩
          simp at hh
      · intro x hx
        rw [dictKeys_erase, List.mem_filter] at hx
        exact hx.1
      · intro x hx
        rcases List.mem_append.mp hx with h | h
        · exact Or.inl h
        · simp only [List.mem_singleton] at h
          subst h
          exact Or.inr hcmem
    · simp only [hc, if_false]
      refine ⟨⟨?_, hz, ?_⟩, ?_, fun x hx => Or.inl hx⟩
      · rw [dictKeys_update]
        exact hm
      · intro x hx
        rw [dictKeys_update]
        exact hdisj x hx
      · intro x hx
        rw [dictKeys_update] at hx
        exact hx

/-- Folding child decrements over any list preserves the invariant, keys
only shrink, and pending nodes come from the old pending list or the old
keys. -/
theorem foldl_decChild_spec :
    ∀ (cs : List String) (m : List (String × Nat)) (z : List String),
      KahnInv m z →
      KahnInv (cs.foldl (fun a child => decChild a.1 a.2 child) (m, z)).1
        (cs.foldl (fun a child => decChild a.1 a.2 child) (m, z)).2 ∧
      (∀ x ∈ dictKeys (cs.foldl (fun a child => decChild a.1 a.2 child) (m, z)).1,
        x ∈ dictKeys m) ∧
      (∀ x ∈ (cs.foldl (fun a child => decChild a.1 a.2 child) (m, z)).2,
        x ∈ z ∨ x ∈ dictKeys m) := by
  intro cs
  induction cs with
  | nil => intro m z h; exact ⟨h, fun x hx => hx, fun x hx => Or.inl hx⟩
  | cons c rest ih =>
    intro m z h
    obtain ⟨hinv, hkeys, hz⟩ := decChild_spec m z c h
    simp only [List.foldl_cons]
    obtain ⟨ih1, ih2, ih3⟩ := ih (decChild m z c).1 (decChild m z c).2 hinv
    refine ⟨ih1, ?_, ?_⟩
    · intro x hx
      exact hkeys x (ih2 x hx)
    · intro x hx
      rcases ih3 x hx with h1 | h1
      · exact hz x h1
      · exact Or.inr (hkeys x h1)

/-- Same statement for a whole generation (a fold of `processNode`). -/
theorem foldl_processNode_spec (edges : List (String × String)) :
    ∀ (us : List String) (m : List (String × Nat)) (z : List String),
      KahnInv m z →
      KahnInv (us.foldl (processNode edges) (m, z)).1
        (us.foldl (processNode edges) (m, z)).2 ∧
      (∀ x ∈ dictKeys (us.foldl (processNode edges) (m, z)).1, x ∈ dictKeys m) ∧
      (∀ x ∈ (us.foldl (processNode edges) (m, z)).2, x ∈ z ∨ x ∈ dictKeys m) := by
  intro us
  induction us with
  | nil => intro m z h; exact ⟨h, fun x hx => hx, fun x hx => Or.inl hx⟩
  | cons u rest ih =>
    intro m z h
    simp only [List.foldl_cons]
    have hstep : processNode edges (m, z) u =
        ((neighborsOf edges u).foldl (fun a child => decChild a.1 a.2 child) (m, z)) := rfl
    obtain ⟨hinv, hkeys, hz⟩ := foldl_decChild_spec (neighborsOf edges u) m z h
    rw [hstep] at *
    obtain ⟨ih1, ih2, ih3⟩ := ih _ _ hinv
    refine ⟨ih1, ?_, ?_⟩
    · intro x hx
      exact hkeys x (ih2 x hx)
    · intro x hx
      rcases ih3 x hx with h1 | h1
      · exact hz x h1
      · exact Or.inr (hkeys x h1)

/-- The emitted generations of the Kahn loop are disjoint and drawn from
the pending list and the map keys. -/
theorem topoGensLoop_spec (edges : List (String × String)) :
    ∀ (fuel : Nat) (m : List (String × Nat)) (z : List String),
      KahnInv m z →
      (topoGensLoop edges fuel m z).flatten.Nodup ∧
      (∀ x ∈ (topoGensLoop edges fuel m z).flatten, x ∈ z ∨ x ∈ dictKeys m) := by
  intro fuel
  induction fuel with
  | zero => intro m z _; simp [topoGensLoop]
  | succ f ih =>
    intro m z h
    by_cases hz : z.isEmpty
    · simp [topoGensLoop, hz]
    · simp only [topoGensLoop]
      rw [if_neg hz]
      obtain ⟨hinv, hkeys, hnew⟩ := foldl_processNode_spec edges z m [] ⟨h.1, by simp, by simp⟩
      obtain ⟨ih1, ih2⟩ := ih _ _ hinv
      rw [List.flatten_cons]
      constructor
      · refine List.Nodup.append h.2.1 ih1 ?_
        intro x hx hx'
        have : x ∈ dictKeys m := by
          rcases ih2 x hx' with h1 | h1
          · rcases hnew x h1 with h2 | h2
            · simp at h2
            · exact h2
          · exact hkeys x h1
        exact h.2.2 x hx this
      · intro x hx
        rcases List.mem_append.mp hx with h1 | h1
        · exact Or.inl h1
        · right
          rcases ih2 x h1 with h2 | h2
          · rcases hnew x h2 with h3 | h3
            · simp at h3
            · exact h3
          · exact hkeys x h2

/-- Keys of the initial in-degree map are the positive-in-degree nodes. -/
theorem dictKeys_initMap (edges : List (String × String)) (nodes : List String) :
    dictKeys (nodes.filterMap
        (fun v => if inDegree edges v > 0 then some (v, inDegree edges v) else none)) =
      nodes.filter (fun v => decide (inDegree edges v > 0)) := by
  induction nodes with
  | nil => rfl
  | cons n rest ih =>
    by_cases h : inDegree edges n > 0
    · have hd : decide (inDegree edges n > 0) = true := by simpa using h
      simpa [List.filterMap_cons, List.filter_cons, if_pos h, hd, dictKeys] using ih
    · have hd : decide (inDegree edges n > 0) = false := by simpa using h
      simpa [List.filterMap_cons, List.filter_cons, if_neg h, hd, dictKeys] using ih

/-- On an acyclic graph with distinct nodes, the topological sort is a
permutation of the node list. -/
theorem topoSortNames_perm (s : Scheduler α) (hnodup : s.nodes.Nodup)
    (hdag : is_directed_acyclic_graph s = true) :
    List.Perm (topoSortNames s) s.nodes := by
  have hlen : (topoSortNames s).length = s.nodes.length := by
    simpa [is_directed_acyclic_graph] using hdag
  have hinv : KahnInv
      (s.nodes.filterMap
        (fun v => if inDegree s.edges v > 0 then some (v, inDegree s.edges v) else none))
      (s.nodes.filter (fun v => inDegree s.edges v = 0)) := by
    refine ⟨?_, hnodup.filter _, ?_⟩
    · rw [dictKeys_initMap]
      exact hnodup.filter _
    · intro x hx
      rw [dictKeys_initMap, List.mem_filter]
      have := (List.mem_filter.mp hx).2
      rintro ⟨-, hpos⟩
      simp only [decide_eq_true_eq] at this hpos
      omega
  obtain ⟨hnd, hsub⟩ := topoGensLoop_spec s.edges s.nodes.length _ _ hinv
  have hsub' : ∀ x ∈ topoSortNames s, x ∈ s.nodes := by
    intro x hx
    rcases hsub x hx with h | h
    · exact List.mem_of_mem_filter h
    · rw [dictKeys_initMap] at h
      exact List.mem_of_mem_filter h
  exact List.Subperm.perm_of_length_le
    (List.Nodup.subperm hnd hsub') (le_of_eq hlen.symm)

/-! ## Properties of the stable sort -/

/-- Insertion keeps the multiset of elements. -/
theorem insertKeyed_perm (key : String → Nat) (x : String) :
    ∀ l : List String, List.Perm (insertKeyed key x l) (x :: l) := by
  intro l
  induction l with
  | nil => simp [insertKeyed]
  | cons y rest ih =>
    unfold insertKeyed
    split
    · exact List.Perm.refl _
    · exact (List.Perm.cons y ih).trans (List.Perm.swap x y rest)

/-- Sorting keeps the multiset of elements. -/
theorem sortKeyed_perm (key : String → Nat) :
    ∀ l : List String, List.Perm (sortKeyed key l) l := by
  intro l
  induction l with
  | nil => exact List.Perm.refl _
  | cons x rest ih =>
    simp only [sortKeyed]
    exact (insertKeyed_perm key x (sortKeyed key rest)).trans (List.Perm.cons x ih)

/-- Insertion into a key-sorted list yields a key-sorted list. -/
theorem insertKeyed_pairwise (key : String → Nat) (x : String) :
    ∀ l : List String, l.Pairwise (fun a b => key a ≤ key b) →
      (insertKeyed key x l).Pairwise (fun a b => key a ≤ key b) := by
  intro l
  induction l with
  | nil => intro _; simp [insertKeyed]
  | cons y rest ih =>
    intro h
    unfold insertKeyed
    split
    · next hxy =>
      refine List.Pairwise.cons ?_ h
      intro b hb
      rcases List.mem_cons.mp hb with hb | hb
      · exact hb ▸ hxy
      · exact le_trans hxy (List.rel_of_pairwise_cons h hb)
    · next hxy =>
      push_neg at hxy
      refine List.Pairwise.cons ?_ (ih (List.Pairwise.of_cons h))
      intro b hb
      have := (insertKeyed_perm key x rest).mem_iff.mp hb
      rcases List.mem_cons.mp this with hb' | hb'
      · exact hb' ▸ le_of_lt hxy
      · exact List.rel_of_pairwise_cons h hb'

/-- The stable sort is sorted by the key. -/
theorem sortKeyed_pairwise (key : String → Nat) :
    ∀ l : List String, (sortKeyed key l).Pairwise (fun a b => key a ≤ key b) := by
  intro l
  induction l with
  | nil => simp [sortKeyed]
  | cons x rest ih =>
    simp only [sortKeyed]
    exact insertKeyed_pairwise key x _ ih

/-- Elements of one key class pass through an insertion in order: the
inserted element lands in front of its own class and leaves the other
classes untouched. -/
theorem insertKeyed_filter (key : String → Nat) (x : String) (p : Nat) :
    ∀ l : List String,
      (insertKeyed key x l).filter (fun n => decide (key n = p)) =
        if key x = p then x :: l.filter (fun n => decide (key n = p))
        else l.filter (fun n => decide (key n = p)) := by
  intro l
  induction l with
  | nil =>
    by_cases h : key x = p
    · simp [insertKeyed, h]
    · simp [insertKeyed, h]
  | cons y rest ih =>
    unfold insertKeyed
    split
    · next hxy =>
      by_cases h : key x = p
      · simp [List.filter_cons, h]
      · simp [List.filter_cons, h]
    · next hxy =>
      push_neg at hxy
      by_cases h : key x = p
      · have hy : ¬ (key y = p) := by omega
        simp only [List.filter_cons, ih]
        simp [h, hy]
      · by_cases hy : key y = p
        · simp only [List.filter_cons, ih]
          simp [h, hy]
        · simp only [List.filter_cons, ih]
          simp [h, hy]

/-- Stability of the sort: every key class appears in its original
relative order. -/
theorem sortKeyed_filter (key : String → Nat) (p : Nat) :
    ∀ l : List String,
      (sortKeyed key l).filter (fun n => decide (key n = p)) =
        l.filter (fun n => decide (key n = p)) := by
  intro l
  induction l with
  | nil => rfl
  | cons x rest ih =>
    simp only [sortKeyed, insertKeyed_filter, List.filter_cons]
    by_cases h : key x = p
    · simp [h, ih]
    · simp [h, ih]

/-! ## Miscellaneous list helpers -/

/-- `contains` agrees with membership for strings. -/
theorem contains_iff (l : List String) (a : String) : l.contains a = true ↔ a ∈ l :=
  List.elem_iff

/-- Removing an element that fails the predicate shortens the filter. -/
theorem length_filter_lt (p : String → Bool) :
    ∀ (l : List String) (x : String), x ∈ l → p x = false →
      (l.filter p).length < l.length := by
  intro l
  induction l with
  | nil => intro x hx; simp at hx
  | cons y rest ih =>
    intro x hx hp
    rcases List.mem_cons.mp hx with h | h
    · subst h
      rw [List.filter_cons, hp]
      simp only [Bool.false_eq_true, if_false]
      have := List.length_filter_le p rest
      simpa using Nat.lt_succ_of_le this
    · rw [List.filter_cons]
      by_cases hy : p y
      · simp only [hy, if_true, List.length_cons]
        exact Nat.succ_lt_succ (ih x h hp)
      · simp only [hy, Bool.false_eq_true, if_false, List.length_cons]
        exact Nat.lt_succ_of_lt (ih x h hp)

/-- Erasing a set of elements from a duplicate-free list is filtering them
out. -/
theorem foldl_erase_eq_filter :
    ∀ (xs l : List String), l.Nodup →
      xs.foldl List.erase l = l.filter (fun a => !(xs.contains a)) := by
  intro xs
  induction xs with
  | nil =>
    intro l _
    simp
  | cons x rest ih =>
    intro l hl
    simp only [List.foldl_cons]
    rw [ih (l.erase x) (hl.erase x)]
    rw [List.Nodup.erase_eq_filter hl x]
    rw [List.filter_filter]
    apply List.filter_congr
    intro a _
    by_cases hax : a = x
    · subst hax
      simp
    · simp [hax, Ne.symm]

/-- The first element of a filtered list has the least index among members
satisfying the predicate. -/
theorem filter_head_min (p : String → Bool) :
    ∀ (R F : List String) (n : String), R.filter p = n :: F →
      ∀ x ∈ R, p x = true → R.indexOf n ≤ R.indexOf x := by
  intro R
  induction R with
  | nil => intro F n h; simp at h
  | cons y rest ih =>
    intro F n hF x hx hpx
    rw [List.filter_cons] at hF
    by_cases hy : p y
    · rw [if_pos hy] at hF
      have hyn : y = n := (List.cons_eq_cons.mp hF).1
      subst hyn
      simp [List.indexOf_cons_self]
    · simp only [hy, Bool.false_eq_true, if_false] at hF
      have hxy : x ≠ y := by
        intro h
        rw [h] at hpx
        exact absurd hpx (by simpa using hy)
      have hny : n ≠ y := by
        intro h
        have : n ∈ List.filter p rest := by rw [hF]; exact List.mem_cons_self _ _
        have := List.of_mem_filter this
        rw [h] at this
        exact absurd this (by simpa using hy)
      rcases List.mem_cons.mp hx with h | h
      · exact absurd h hxy
      · rw [List.indexOf_cons_ne _ (Ne.symm hny), List.indexOf_cons_ne _ (Ne.symm hxy)]
        exact Nat.succ_le_succ (ih F n hF x h hpx)

/-- An element of a prefix has index below the prefix length. -/
theorem indexOf_mem_take :
    ∀ (l : List String) (i : Nat) (d : String), d ∈ l.take i → l.indexOf d < i := by
  intro l
  induction l with
  | nil => intro i d hd; simp at hd
  | cons x rest ih =>
    intro i d hd
    cases i with
    | zero => simp at hd
    | succ j =>
      rw [List.take_succ_cons] at hd
      rcases List.mem_cons.mp hd with h | h
      · subst h
        simp [List.indexOf_cons_self]
      · by_cases hdx : d = x
        · subst hdx
          simp [List.indexOf_cons_self]
        · rw [List.indexOf_cons_ne _ (Ne.symm hdx)]
          exact Nat.succ_lt_succ (ih j d h)

/-! ## The layering loop -/

/-- Master invariant of the `while task_order:` loop.  `R` is a reference
order (registration order) in which every dependency points strictly
backwards.  As long as the unprocessed tasks are duplicate-free members of
`R` and everything else in `R` is visited, the loop consumes every
remaining task exactly once, and every dependency of a task placed in
layer `j` is already visited or sits in a strictly earlier layer. -/
theorem buildLayersLoop_master (tasks : List (String × PipelineTask α)) (R : List String)
    (hdeps : ∀ n ∈ R, ∀ d ∈ depsOfName tasks n, d ∈ R ∧ R.indexOf d < R.indexOf n) :
    ∀ (fuel : Nat) (remaining visited : List String),
      remaining.Nodup →
      (∀ x ∈ remaining, x ∈ R) →
      (∀ x ∈ R, x ∉ remaining → x ∈ visited) →
      remaining.length ≤ fuel →
      List.Perm (buildLayersLoop tasks fuel remaining visited).flatten remaining ∧
      (∀ j (hj : j < (buildLayersLoop tasks fuel remaining visited).length),
        ∀ n ∈ (buildLayersLoop tasks fuel remaining visited).get ⟨j, hj⟩,
        ∀ d ∈ depsOfName tasks n,
          d ∈ visited ∨ d ∈ ((buildLayersLoop tasks fuel remaining visited).take j).flatten) := by
  intro fuel
  induction fuel with
  | zero =>
    intro remaining visited hnd hsub hcomp hlen
    have : remaining = [] := List.eq_nil_of_length_eq_zero (Nat.le_zero.mp hlen)
    subst this
    simp [buildLayersLoop]
  | succ f ih =>
    intro remaining visited hnd hsub hcomp hlen
    by_cases hrem : remaining.isEmpty
    · have : remaining = [] := List.isEmpty_iff.mp hrem
      subst this
      simp [buildLayersLoop]
    · have hready_ne : remaining.filter
          (fun n => (depsOfName tasks n).all (fun d => visited.contains d)) ≠ [] := by
        rcases List.exists_mem_of_ne_nil remaining
          (fun h => hrem (by rw [h]; rfl)) with ⟨y, hy⟩
        rcases hFne : R.filter (fun x => decide (x ∈ remaining)) with _ | ⟨n, F'⟩
        · exfalso
          have : y ∈ R.filter (fun x => decide (x ∈ remaining)) :=
            List.mem_filter.mpr ⟨hsub y hy, by simpa using hy⟩
          rw [hFne] at this
          simp at this
        · have hnF : n ∈ R.filter (fun x => decide (x ∈ remaining)) := by
            rw [hFne]; exact List.mem_cons_self _ _
          have hnR : n ∈ R := List.mem_of_mem_filter hnF
          have hnrem : n ∈ remaining := by simpa using List.of_mem_filter hnF
          have hnready : ∀ d ∈ depsOfName tasks n, d ∈ visited := by
            intro d hd
            obtain ⟨hdR, hidx⟩ := hdeps n hnR d hd
            by_cases hdrem : d ∈ remaining
            · exfalso
              have := filter_head_min (fun x => decide (x ∈ remaining)) R F' n hFne d hdR
                (by simpa using hdrem)
              omega
            · exact hcomp d hdR hdrem
          apply List.ne_nil_of_mem (a := n)
          refine List.mem_filter.mpr ⟨hnrem, ?_⟩
          rw [List.all_eq_true]
          intro d hd
          rw [contains_iff]
          exact hnready d hd
      have hlayer_ne : sortKeyed (prioValue tasks)
          (remaining.filter
            (fun n => (depsOfName tasks n).all (fun d => visited.contains d))) ≠ [] := by
        intro h
        rcases List.exists_mem_of_ne_nil _ hready_ne with ⟨y, hy⟩
        have : y ∈ sortKeyed (prioValue tasks)
            (remaining.filter
              (fun n => (depsOfName tasks n).all (fun d => visited.contains d))) :=
          (sortKeyed_perm _ _).mem_iff.mpr hy
        rw [h] at this
        simp at this
      have hloop : buildLayersLoop tasks (f + 1) remaining visited =
          sortKeyed (prioValue tasks)
              (remaining.filter
                (fun n => (depsOfName tasks n).all (fun d => visited.contains d))) ::
            buildLayersLoop tasks f
              ((sortKeyed (prioValue tasks)
                (remaining.filter
                  (fun n => (depsOfName tasks n).all (fun d => visited.contains d)))).foldl
                List.erase remaining)
              (visited ++ sortKeyed (prioValue tasks)
                (remaining.filter
                  (fun n => (depsOfName tasks n).all (fun d => visited.contains d)))) := by
        simp only [buildLayersLoop]
        rw [if_neg hrem, if_neg (by simpa using hlayer_ne)]
      set p : String → Bool :=
        fun n => (depsOfName tasks n).all (fun d => visited.contains d) with hp
      set ready := remaining.filter p with hready
      set layer := sortKeyed (prioValue tasks) ready with hlayerdef
      have hlayer_mem : ∀ x, x ∈ layer ↔ x ∈ ready :=
        fun x => (sortKeyed_perm (prioValue tasks) ready).mem_iff
      have hrem' : layer.foldl List.erase remaining =
          remaining.filter (fun a => !(layer.contains a)) :=
        foldl_erase_eq_filter layer remaining hnd
      have hfilter_eq : remaining.filter (fun a => !(layer.contains a)) =
          remaining.filter (fun a => !(p a)) := by
        apply List.filter_congr
        intro a ha
        congr 1
        cases hpa : p a with
        | true =>
          have : a ∈ layer := (hlayer_mem a).mpr (List.mem_filter.mpr ⟨ha, hpa⟩)
          simpa [contains_iff] using this
        | false =>
          have : a ∉ layer := by
            rw [hlayer_mem a]
            intro hmem
            have := List.of_mem_filter hmem
            rw [hpa] at this
            simp at this
          simpa [contains_iff] using this
      have hnd' : (layer.foldl List.erase remaining).Nodup := by
        rw [hrem']
        exact hnd.filter _
      have hsub' : ∀ x ∈ layer.foldl List.erase remaining, x ∈ R := by
        intro x hx
        rw [hrem'] at hx
        exact hsub x (List.mem_of_mem_filter hx)
      have hcomp' : ∀ x ∈ R, x ∉ layer.foldl List.erase remaining →
          x ∈ visited ++ layer := by
        intro x hxR hx
        rw [hrem', hfilter_eq] at hx
        by_cases hxrem : x ∈ remaining
        · apply List.mem_append_right
          cases hpx : p x with
          | true => exact (hlayer_mem x).mpr (List.mem_filter.mpr ⟨hxrem, hpx⟩)
          | false =>
            exfalso
            exact hx (List.mem_filter.mpr ⟨hxrem, by rw [hpx]; rfl⟩)
        · exact List.mem_append_left _ (hcomp x hxR hxrem)
      have hlen' : (layer.foldl List.erase remaining).length ≤ f := by
        rw [hrem']
        rcases List.exists_mem_of_ne_nil _ hready_ne with ⟨y, hy⟩
        have hylayer : y ∈ layer := (hlayer_mem y).mpr hy
        have : (remaining.filter (fun a => !(layer.contains a))).length <
            remaining.length := by
          apply length_filter_lt _ remaining y (List.mem_of_mem_filter hy)
          simp [contains_iff, hylayer]
        omega
      obtain ⟨ihperm, ihdeps⟩ := ih (layer.foldl List.erase remaining)
        (visited ++ layer) hnd' hsub' hcomp' hlen'
      constructor
      · rw [hloop]
        rw [List.flatten_cons]
        have h1 : List.Perm
            (layer ++ (buildLayersLoop tasks f (layer.foldl List.erase remaining)
              (visited ++ layer)).flatten)
            (ready ++ remaining.filter (fun a => !(p a))) := by
          refine List.Perm.append (sortKeyed_perm _ _) ?_
          rw [← hfilter_eq, ← hrem']
          exact ihperm
        exact h1.trans (List.filter_append_perm p remaining)
      · rw [hloop]
        intro j hj n hn d hd
        cases j with
        | zero =>
          left
          have hn' : n ∈ layer := hn
          have := List.of_mem_filter ((hlayer_mem n).mp hn')
          rw [List.all_eq_true] at this
          have := this d hd
          rw [contains_iff] at this
          exact this
        | succ j' =>
          simp only [List.get_cons_succ] at hn
          have hj' : j' < (buildLayersLoop tasks f (layer.foldl List.erase remaining)
              (visited ++ layer)).length := by
            simpa using Nat.succ_lt_succ_iff.mp (by simpa using hj)
          rcases ihdeps j' hj' n hn d hd with h | h
          · rcases List.mem_append.mp h with h1 | h1
            · exact Or.inl h1
            · right
              rw [List.take_succ_cons, List.flatten_cons]
              exact List.mem_append_left _ h1
          · right
            rw [List.take_succ_cons, List.flatten_cons]
            exact List.mem_append_right _ h

/-- Registry lookup on a canonical state returns the task registered under
the name. -/
theorem dictFind_canon (ts : List (PipelineTask α)) (hnodup : (regNames ts).Nodup) :
    ∀ i (hi : i < ts.length),
      dictFind (ts.get ⟨i, hi⟩).name (ts.map (fun t => (t.name, t))) =
        some (ts.get ⟨i, hi⟩) := by
  induction ts with
  | nil => intro i hi; simp at hi
  | cons t rest ih =>
    intro i hi
    cases i with
    | zero => simp [dictFind]
    | succ j =>
      have hj : j < rest.length := by simpa using hi
      have hmem : (rest.get ⟨j, hj⟩).name ∈ regNames rest := by
        rw [regNames]
        exact List.mem_map_of_mem _ (rest.get_mem _ _)
      have hne : t.name ≠ (rest.get ⟨j, hj⟩).name := by
        intro h
        rw [regNames, List.map_cons, List.nodup_cons] at hnodup
        exact hnodup.1 (h ▸ hmem)
      simp only [List.get_cons_succ, List.map_cons, dictFind]
      rw [if_neg hne]
      exact ih (by rw [regNames, List.map_cons, List.nodup_cons] at hnodup; exact hnodup.2) j hj

/-- The dependencies the layering loop reads for the i-th registered name
are exactly that task's declared dependencies. -/
theorem depsOfName_canon (ts : List (PipelineTask α)) (hnodup : (regNames ts).Nodup)
    (i : Nat) (hi : i < ts.length) :
    depsOfName (canonState ts).tasks (ts.get ⟨i, hi⟩).name =
      (ts.get ⟨i, hi⟩).dependencies := by
  have hfind := dictFind_canon ts hnodup i hi
  simp only [List.get_eq_getElem] at hfind
  simp [depsOfName, canonState, hfind]

/-- On a validly registered task list, every dependency of a name points
strictly backwards in registration order. -/
theorem canon_hdeps (ts : List (PipelineTask α)) (hnodup : (regNames ts).Nodup)
    (hresolve : DepsResolved ts) :
    ∀ n ∈ regNames ts, ∀ d ∈ depsOfName (canonState ts).tasks n,
      d ∈ regNames ts ∧ (regNames ts).indexOf d < (regNames ts).indexOf n := by
  intro n hn d hd
  rw [regNames, List.mem_map] at hn
  obtain ⟨t, ht, hname⟩ := hn
  obtain ⟨⟨i, hi⟩, hget⟩ := List.mem_iff_get.mp ht
  have hname' : (ts.get ⟨i, hi⟩).name = n := by rw [hget, hname]
  rw [← hname', depsOfName_canon ts hnodup i hi] at hd
  have htake := hresolve i hi d hd
  have htake' : d ∈ (regNames ts).take i := by
    rw [regNames, ← List.map_take]
    exact htake
  refine ⟨List.mem_of_mem_take htake', ?_⟩
  rw [← hname']
  have hidxn : (regNames ts).indexOf ((ts.get ⟨i, hi⟩).name) = i := by
    have hlen : i < (regNames ts).length := by simpa [regNames] using hi
    have hget' : (regNames ts).get ⟨i, hlen⟩ = (ts.get ⟨i, hi⟩).name := by
      simp [regNames, List.getElem_map]
    rw [← hget']
    simpa using List.indexOf_getElem hnodup i hlen
  rw [hidxn]
  exact indexOf_mem_take (regNames ts) i d htake'

/-- When the layers are globally duplicate-free, `layerIdx` recovers the
unique layer of a member. -/
theorem layerIdx_unique (out : List (List String)) (hnd : out.flatten.Nodup)
    (n : String) (j : Nat) (hj : j < out.length) (hn : n ∈ out.get ⟨j, hj⟩) :
    layerIdx out n = j := by
  rw [layerIdx, List.findIdx_eq hj]
  constructor
  · simpa [contains_iff] using hn
  · intro k hk
    have hdisj := (List.nodup_flatten.mp hnd).2
    rw [List.pairwise_iff_get] at hdisj
    have := hdisj ⟨k, Nat.lt_trans hk hj⟩ ⟨j, hj⟩ hk
    cases hcon : (out.get ⟨k, Nat.lt_trans hk hj⟩).contains n with
    | false => rfl
    | true =>
      exfalso
      exact this (contains_iff _ n |>.mp hcon) hn


/-- C2: on every validly registered acyclic task set, the layer
computation of `run` places every registered task in exactly one layer,
and every dependency in a strictly earlier layer than its dependent. -/
theorem build_layers_partition_strict (ts : List (PipelineTask α)) (h : ValidSetup ts) :
    (∀ n ∈ regNames ts, (buildLayersOf (sched ts)).flatten.count n = 1) ∧
    (∀ i (hi : i < ts.length), ∀ d ∈ (ts.get ⟨i, hi⟩).dependencies,
      layerIdx (buildLayersOf (sched ts)) d <
        layerIdx (buildLayersOf (sched ts)) (ts.get ⟨i, hi⟩).name) := by
  obtain ⟨hstate, hresolve, hdag⟩ := sched_canonical ts h
  have hnodupR : (regNames ts).Nodup := h.1
  have hnodes : (canonState (α := α) ts).nodes = regNames ts := rfl
  have htopo := topoSortNames_perm (canonState ts) (by rw [hnodes]; exact hnodupR) hdag
  rw [hnodes] at htopo
  have hLnodup : (topoSortNames (canonState (α := α) ts)).Nodup :=
    htopo.nodup_iff.mpr hnodupR
  obtain ⟨hperm, hlay⟩ := buildLayersLoop_master (canonState ts).tasks (regNames ts)
    (canon_hdeps ts hnodupR hresolve)
    (topoSortNames (canonState ts)).length (topoSortNames (canonState ts)) []
    hLnodup (fun x hx => htopo.mem_iff.mp hx)
    (fun x hxR hxL => absurd (htopo.mem_iff.mpr hxR) hxL)
    (Nat.le_refl _)
  have hout : buildLayersOf (sched ts) =
      buildLayersLoop (canonState ts).tasks (topoSortNames (canonState ts)).length
        (topoSortNames (canonState ts)) [] := by
    rw [hstate]
    rfl
  rw [hout]
  set B := buildLayersLoop (canonState ts).tasks (topoSortNames (canonState ts)).length
    (topoSortNames (canonState ts)) [] with hB
  have hflatperm : List.Perm B.flatten (regNames ts) := hperm.trans htopo
  have hflatnodup : B.flatten.Nodup := hflatperm.nodup_iff.mpr hnodupR
  constructor
  · intro n hn
    exact List.count_eq_one_of_mem hflatnodup (hflatperm.mem_iff.mpr hn)
  · intro i hi d hd
    have hnmem : (ts.get ⟨i, hi⟩).name ∈ B.flatten := by
      apply hflatperm.mem_iff.mpr
      rw [regNames]
      exact List.mem_map_of_mem _ (ts.get_mem _ _)
    rw [List.mem_flatten] at hnmem
    obtain ⟨l, hl, hnl⟩ := hnmem
    obtain ⟨⟨j, hj⟩, hgetl⟩ := List.mem_iff_get.mp hl
    have hdeps' : d ∈ depsOfName (canonState ts).tasks (ts.get ⟨i, hi⟩).name := by
      rw [depsOfName_canon ts hnodupR i hi]
      exact hd
    have hlay' := hlay j hj (ts.get ⟨i, hi⟩).name (by rw [hgetl]; exact hnl) d hdeps'
    rcases hlay' with hfalse | hdtake
    · simp at hfalse
    · rw [List.mem_flatten] at hdtake
      obtain ⟨l', hl', hdl'⟩ := hdtake
      obtain ⟨⟨k, hk⟩, hgetk⟩ := List.mem_iff_get.mp hl'
      have hkj : k < j := by
        have := hk
        simp only [List.length_take] at this
        omega
      have hkout : k < B.length := by
        have := hk
        simp only [List.length_take] at this
        omega
      have hgetk' : B.get ⟨k, hkout⟩ = l' := by
        rw [← hgetk]
        simp [List.getElem_take]
      have hidxd : layerIdx B d = k :=
        layerIdx_unique B hflatnodup d k hkout (by rw [hgetk']; exact hdl')
      have hidxn : layerIdx B (ts.get ⟨i, hi⟩).name = j :=
        layerIdx_unique B hflatnodup _ j hj (by rw [hgetl]; exact hnl)
      rw [hidxd, hidxn]
      exact hkj

/-- Witness for C2: in the A/B/C scenario, C sits in exactly one layer and
strictly after its dependency A. -/
theorem build_layers_partition_strict_witness :
    (buildLayersOf (sched abcTs)).flatten.count "C" = 1 ∧
    layerIdx (buildLayersOf (sched abcTs)) "A" < layerIdx (buildLayersOf (sched abcTs)) "C" := by
  have hv : ValidSetup abcTs := ⟨by decide, by decide, rfl⟩
  obtain ⟨h1, h2⟩ := build_layers_partition_strict abcTs hv
  exact ⟨h1 "C" (by decide), h2 2 (by decide) "A" (by decide)⟩

/-! ## Priority does not influence layer membership -/

/-- Shape equality: same names and same dependency lists, position by
position (priorities, actions, timeouts may differ). -/
def SameShape (ts ts' : List (PipelineTask α)) : Prop :=
  List.Forall₂ (fun a b => a.name = b.name ∧ a.dependencies = b.dependencies) ts ts'

/-- Shape-equal task lists register the same names. -/
theorem regNames_shape_eq (ts ts' : List (PipelineTask α)) (h : SameShape ts ts') :
    regNames ts = regNames ts' := by
  induction h with
  | nil => rfl
  | cons hab _ ih => simp [regNames] at ih ⊢; exact ⟨hab.1, ih⟩

/-- Shape-equal task lists declare the same dependency edges. -/
theorem depEdges_shape_eq (ts ts' : List (PipelineTask α)) (h : SameShape ts ts') :
    depEdges ts = depEdges ts' := by
  induction h with
  | nil => rfl
  | cons hab _ ih =>
    simp only [depEdges, List.flatMap_cons] at ih ⊢
    rw [hab.1, hab.2, ih]

/-- Shape-equal task lists resolve every name to the same dependency
list. -/
theorem depsOfName_shape_eq (ts ts' : List (PipelineTask α)) (h : SameShape ts ts')
    (n : String) :
    depsOfName (canonState ts).tasks n = depsOfName (canonState ts').tasks n := by
  simp only [canonState]
  induction h with
  | nil => rfl
  | cons hab _ ih =>
    rename_i a b l₁ l₂ _
    simp only [List.map_cons, depsOfName, dictFind]
    rw [hab.1]
    by_cases hn : b.name = n
    · rw [if_pos hn, if_pos hn]
      simp [hab.2]
    · rw [if_neg hn, if_neg hn]
      simpa [depsOfName] using ih

/-- The topological sort reads only the node and edge lists. -/
theorem topoSortNames_congr (s s' : Scheduler α) (hn : s.nodes = s'.nodes)
    (he : s.edges = s'.edges) : topoSortNames s = topoSortNames s' := by
  unfold topoSortNames topological_generations
  rw [hn, he]

/-- The layering loop run on two registries that resolve every name to the
same dependencies, from the same remaining order and membership-equal
visited sets, produces layers that agree as multisets position by
position. -/
theorem buildLayersLoop_prio_indep (tasks₁ tasks₂ : List (String × PipelineTask α))
    (hdeps : ∀ n, depsOfName tasks₁ n = depsOfName tasks₂ n) :
    ∀ (fuel : Nat) (remaining visited₁ visited₂ : List String),
      remaining.Nodup →
      (∀ x, x ∈ visited₁ ↔ x ∈ visited₂) →
      List.Forall₂ List.Perm
        (buildLayersLoop tasks₁ fuel remaining visited₁)
        (buildLayersLoop tasks₂ fuel remaining visited₂) := by
  intro fuel
  induction fuel with
  | zero => intro remaining v₁ v₂ _ _; simp [buildLayersLoop]
  | succ f ih =>
    intro remaining v₁ v₂ hnd hvis
    by_cases hrem : remaining.isEmpty
    · simp [buildLayersLoop, hrem]
    · have hcont : ∀ d, v₁.contains d = v₂.contains d := by
        intro d
        cases h1 : v₁.contains d with
        | true =>
          have := (hvis d).mp ((contains_iff v₁ d).mp h1)
          exact ((contains_iff v₂ d).mpr this).symm
        | false =>
          cases h2 : v₂.contains d with
          | false => rfl
          | true =>
            exfalso
            have := (hvis d).mpr ((contains_iff v₂ d).mp h2)
            rw [(contains_iff v₁ d).mpr this] at h1
            simp at h1
      have hready_eq : remaining.filter
            (fun n => (depsOfName tasks₁ n).all (fun d => v₁.contains d)) =
          remaining.filter
            (fun n => (depsOfName tasks₂ n).all (fun d => v₂.contains d)) := by
        apply List.filter_congr
        intro n _
        rw [hdeps n]
        congr 1
        funext d
        rw [hcont d]
      set ready := remaining.filter
        (fun n => (depsOfName tasks₁ n).all (fun d => v₁.contains d)) with hready
      set layer₁ := sortKeyed (prioValue tasks₁) ready with hl1
      have hl2eq : sortKeyed (prioValue tasks₂)
          (remaining.filter
            (fun n => (depsOfName tasks₂ n).all (fun d => v₂.contains d))) =
          sortKeyed (prioValue tasks₂) ready := by rw [← hready_eq]
      set layer₂ := sortKeyed (prioValue tasks₂) ready with hl2
      have hperm12 : List.Perm layer₁ layer₂ :=
        (sortKeyed_perm _ _).trans (sortKeyed_perm _ _).symm
      have hmem12 : ∀ x, x ∈ layer₁ ↔ x ∈ layer₂ := fun x => hperm12.mem_iff
      have hloop₁ : buildLayersLoop tasks₁ (f + 1) remaining v₁ =
          if layer₁.isEmpty then buildLayersLoop tasks₁ f remaining v₁
          else layer₁ :: buildLayersLoop tasks₁ f (layer₁.foldl List.erase remaining)
            (v₁ ++ layer₁) := by
        simp only [buildLayersLoop]
        rw [if_neg hrem]
      have hloop₂ : buildLayersLoop tasks₂ (f + 1) remaining v₂ =
          if layer₂.isEmpty then buildLayersLoop tasks₂ f remaining v₂
          else layer₂ :: buildLayersLoop tasks₂ f (layer₂.foldl List.erase remaining)
            (v₂ ++ layer₂) := by
        simp only [buildLayersLoop]
        rw [if_neg hrem, hl2eq]
      rw [hloop₁, hloop₂]
      by_cases hemp : layer₁.isEmpty
      · have hemp₂ : layer₂.isEmpty := by
          rcases hperm12 with _
          cases h2 : layer₂ with
          | nil => rfl
          | cons y rest =>
            exfalso
            have : y ∈ layer₁ := (hmem12 y).mpr (by rw [h2]; exact List.mem_cons_self _ _)
            rw [List.isEmpty_iff.mp hemp] at this
            simp at this
        rw [if_pos hemp, if_pos hemp₂]
        exact ih remaining v₁ v₂ hnd hvis
      · have hemp₂ : ¬ layer₂.isEmpty := by
          intro h2
          rcases List.exists_mem_of_ne_nil layer₁
            (fun h => hemp (by rw [h]; rfl)) with ⟨y, hy⟩
          have : y ∈ layer₂ := (hmem12 y).mp hy
          rw [List.isEmpty_iff.mp h2] at this
          simp at this
        rw [if_neg hemp, if_neg hemp₂]
        have herase : layer₁.foldl List.erase remaining =
            layer₂.foldl List.erase remaining := by
          rw [foldl_erase_eq_filter layer₁ remaining hnd,
            foldl_erase_eq_filter layer₂ remaining hnd]
          apply List.filter_congr
          intro a _
          congr 1
          cases h1 : layer₁.contains a with
          | true =>
            exact ((contains_iff layer₂ a).mpr ((hmem12 a).mp ((contains_iff layer₁ a).mp h1))).symm
          | false =>
            cases h2 : layer₂.contains a with
            | false => rfl
            | true =>
              exfalso
              have := (hmem12 a).mpr ((contains_iff layer₂ a).mp h2)
              rw [(contains_iff layer₁ a).mpr this] at h1
              simp at h1
        refine List.Forall₂.cons hperm12 ?_
        rw [herase]
        apply ih _ _ _ ?_ ?_
        · rw [foldl_erase_eq_filter layer₂ remaining hnd]
          exact hnd.filter _
        · intro x
          simp only [List.mem_append]
          constructor
          · rintro (h | h)
            · exact Or.inl ((hvis x).mp h)
            · exact Or.inr ((hmem12 x).mp h)
          · rintro (h | h)
            · exact Or.inl ((hvis x).mpr h)
            · exact Or.inr ((hmem12 x).mpr h)

/-- C7: layer membership is a function of names and dependencies alone.
Two validly registered task lists with identical names and dependency
lists but arbitrary priorities yield the same partition into layers (each
layer equal as a multiset of names, hence as a set). -/
theorem layer_membership_priority_independent (ts ts' : List (PipelineTask α))
    (h : ValidSetup ts) (h' : ValidSetup ts') (hshape : SameShape ts ts') :
    List.Forall₂ List.Perm (buildLayersOf (sched ts)) (buildLayersOf (sched ts')) := by
  obtain ⟨hstate, -, hdag⟩ := sched_canonical ts h
  obtain ⟨hstate', -, -⟩ := sched_canonical ts' h'
  have hnodes : (canonState (α := α) ts).nodes = (canonState (α := α) ts').nodes := by
    simp [canonState, regNames_shape_eq ts ts' hshape]
  have hedges : (canonState (α := α) ts).edges = (canonState (α := α) ts').edges := by
    simp [canonState, depEdges_shape_eq ts ts' hshape]
  have htopo := topoSortNames_congr (canonState ts) (canonState ts') hnodes hedges
  have hnd : (topoSortNames (canonState (α := α) ts)).Nodup :=
    (topoSortNames_perm (canonState ts) (by exact h.1) hdag).nodup_iff.mpr h.1
  rw [hstate, hstate']
  unfold buildLayersOf
  rw [← htopo]
  exact buildLayersLoop_prio_indep (canonState ts).tasks (canonState ts').tasks
    (depsOfName_shape_eq ts ts' hshape) _ _ [] [] hnd (by simp)

/-- Witness for C7: the crossed diamond with its priorities permuted
produces the same layer sets. -/
theorem layer_membership_priority_independent_witness :
    List.Forall₂ List.Perm (buildLayersOf (sched crossTs)) (buildLayersOf (sched crossTsPrio)) := by
  refine layer_membership_priority_independent crossTs crossTsPrio
    ⟨by decide, by decide, rfl⟩ ⟨by decide, by decide, rfl⟩ ?_
  exact .cons ⟨rfl, rfl⟩ (.cons ⟨rfl, rfl⟩ (.cons ⟨rfl, rfl⟩ (.cons ⟨rfl, rfl⟩ .nil)))

/-! ## Lemmas about layer execution and `run` -/

/-- Inserting under one key keeps every key present. -/
theorem dictFind_insert_self (l : List (String × β)) (k : String) (v : β) :
    dictFind k (dictInsert l k v) = some v := by
  induction l with
  | nil => simp [dictInsert, dictFind]
  | cons p rest ih =>
    simp only [dictInsert]
    by_cases h : p.1 = k
    · simp [dictFind, h]
    · rw [if_neg h]
      simp only [dictFind]
      rw [if_neg h]
      exact ih

/-- Insertion does not remove other keys. -/
theorem dictFind_insert_ne (l : List (String × β)) (k k' : String) (v : β)
    (h : k' ≠ k) : dictFind k' (dictInsert l k v) = dictFind k' l := by
  induction l with
  | nil => simp [dictInsert, dictFind, Ne.symm h]
  | cons p rest ih =>
    simp only [dictInsert]
    by_cases hp : p.1 = k
    · simp only [if_pos hp, dictFind]
      rw [if_neg (Ne.symm h), if_neg (by rw [hp]; exact Ne.symm h)]
    · simp only [if_neg hp, dictFind]
      by_cases hp' : p.1 = k'
      · rw [if_pos hp', if_pos hp']
      · rw [if_neg hp', if_neg hp']
        exact ih

/-- A layer fold that already carries an error keeps exactly that error. -/
theorem foldl_execStep_some (tasks : List (String × PipelineTask α)) :
    ∀ (layer : List String) (c : List (String × α)) (e : RunError),
      (layer.foldl (execStep tasks) (c, some e)).2 = some e := by
  intro layer
  induction layer with
  | nil => intro c e; rfl
  | cons name rest ih =>
    intro c e
    simp only [List.foldl_cons]
    have hstep : ∀ c', (execStep tasks (c', some e) name).2 = some e := by
      intro c'
      unfold execStep
      cases execute_task tasks c' name with
      | none => rfl
      | some r => cases r.outcome <;> rfl
    rcases hx : execStep tasks (c, some e) name with ⟨c', e'⟩
    have : e' = some e := by rw [← hstep c, hx]
    subst this
    exact ih c' e

/-- A gathered layer that raises no error executed every one of its tasks
successfully: previously present cache keys survive and every task of the
layer has written its entry. -/
theorem execLayer_ok_spec (tasks : List (String × PipelineTask α)) :
    ∀ (layer : List String) (c : List (String × α)),
      (execLayer tasks layer c).2 = none →
      (∀ n, (dictFind n c).isSome → (dictFind n (execLayer tasks layer c).1).isSome) ∧
      (∀ n ∈ layer, (dictFind n (execLayer tasks layer c).1).isSome) := by
  intro layer
  induction layer with
  | nil =>
    intro c _
    exact ⟨fun n h => h, by simp⟩
  | cons name rest ih =>
    intro c hok
    rw [execLayer, List.foldl_cons] at hok ⊢
    cases hexec : execute_task tasks c name with
    | none =>
      exfalso
      have hstep : execStep tasks (c, none) name = (c, some (.missingTask name)) := by
        unfold execStep
        rw [hexec]
        rfl
      rw [hstep] at hok
      rw [foldl_execStep_some] at hok
      simp at hok
    | some r =>
      obtain ⟨t, hfind, hr⟩ := Option.map_eq_some'.mp hexec
      cases houtcome : r.outcome with
      | error e =>
        exfalso
        have hstep : execStep tasks (c, none) name = (r.cache, some (.taskFailed e)) := by
          unfold execStep
          rw [hexec]
          simp [houtcome]
        rw [hstep] at hok
        rw [foldl_execStep_some] at hok
        simp at hok
      | ok v =>
        have hstep : execStep tasks (c, none) name = (r.cache, none) := by
          unfold execStep
          rw [hexec]
          simp [houtcome]
        rw [hstep] at hok ⊢
        have hcache : r.cache = dictInsert c name v := by
          rw [← hr]
          exact execLoop_cache_of_ok t name c t.retries 0 v (by rw [hr, houtcome])
        obtain ⟨ihpres, ihmem⟩ := ih r.cache hok
        refine ⟨?_, ?_⟩
        · intro n hn
          apply ihpres
          rw [hcache]
          by_cases hnn : n = name
          · subst hnn
            rw [dictFind_insert_self]
            rfl
          · rw [dictFind_insert_ne _ _ _ _ hnn]
            exact hn
        · intro n hn
          rcases List.mem_cons.mp hn with h | h
          · subst h
            apply ihpres
            rw [hcache, dictFind_insert_self]
            rfl
          · exact ihmem n h

/-- A fully successful sequence of layers keeps existing cache entries and
records one for every task of every layer; the trace lists exactly the
executed layers in order. -/
theorem runLayers_ok_spec (tasks : List (String × PipelineTask α)) :
    ∀ (layers : List (List String)) (c : List (String × α)) (started : List String),
      (runLayers tasks layers c started).2.2 = none →
      (∀ n, (dictFind n c).isSome →
        (dictFind n (runLayers tasks layers c started).1).isSome) ∧
      (∀ n ∈ layers.flatten, (dictFind n (runLayers tasks layers c started).1).isSome) ∧
      (runLayers tasks layers c started).2.1 = started ++ layers.flatten := by
  intro layers
  induction layers with
  | nil =>
    intro c started _
    exact ⟨fun n h => h, by simp, by simp [runLayers]⟩
  | cons layer rest ih =>
    intro c started hok
    have hrl : runLayers tasks (layer :: rest) c started =
        (match (execLayer tasks layer c).2 with
         | some err => ((execLayer tasks layer c).1, started ++ layer, some err)
         | none => runLayers tasks rest (execLayer tasks layer c).1 (started ++ layer)) := rfl
    cases hE : (execLayer tasks layer c).2 with
    | some err =>
      rw [hrl, hE] at hok
      simp at hok
    | none =>
      rw [hrl, hE] at hok ⊢
      obtain ⟨hpres1, hmem1⟩ := execLayer_ok_spec tasks layer c hE
      obtain ⟨hpres2, hmem2, htrace⟩ := ih (execLayer tasks layer c).1 (started ++ layer) hok
      refine ⟨fun n hn => hpres2 n (hpres1 n hn), ?_, ?_⟩
      · intro n hn
        rw [List.flatten_cons] at hn
        rcases List.mem_append.mp hn with h | h
        · exact hpres2 n (hmem1 n h)
        · exact hmem2 n h
      · rw [htrace, List.flatten_cons]
        simp

/-- Trace shape of the layer loop of `run`: either no error occurred and
every layer was started in order, or some layer raised and the trace ends
with that layer. -/
theorem runLayers_trace (tasks : List (String × PipelineTask α)) :
    ∀ (layers : List (List String)) (c : List (String × α)) (started : List String),
      ((runLayers tasks layers c started).2.2 = none ∧
        (runLayers tasks layers c started).2.1 = started ++ layers.flatten) ∨
      (∃ e i, (runLayers tasks layers c started).2.2 = some e ∧ i < layers.length ∧
        (runLayers tasks layers c started).2.1 =
          started ++ ((layers.take (i + 1)).flatten)) := by
  intro layers
  induction layers with
  | nil =>
    intro c started
    left
    exact ⟨rfl, by simp [runLayers]⟩
  | cons layer rest ih =>
    intro c started
    have hrl : runLayers tasks (layer :: rest) c started =
        (match (execLayer tasks layer c).2 with
         | some err => ((execLayer tasks layer c).1, started ++ layer, some err)
         | none => runLayers tasks rest (execLayer tasks layer c).1 (started ++ layer)) := rfl
    cases hE : (execLayer tasks layer c).2 with
    | some err =>
      right
      refine ⟨err, 0, ?_, by simp, ?_⟩
      · rw [hrl, hE]
      · rw [hrl, hE]
        simp
    | none =>
      rcases ih (execLayer tasks layer c).1 (started ++ layer) with ⟨h1, h2⟩ | ⟨e, i, h1, h2, h3⟩
      · left
        rw [hrl, hE]
        refine ⟨h1, ?_⟩
        rw [h2, List.flatten_cons]
        simp
      · right
        refine ⟨e, i + 1, ?_, by simpa using h2, ?_⟩
        · rw [hrl, hE]
          exact h1
        · rw [hrl, hE]
          rw [h3, List.take_succ_cons, List.flatten_cons]
          simp

/-- The computed layers of a validly registered scheduler cover the
registered names exactly once. -/
theorem buildLayers_flatten_perm (ts : List (PipelineTask α)) (h : ValidSetup ts) :
    List.Perm (buildLayersOf (sched ts)).flatten (regNames ts) := by
  obtain ⟨hstate, hresolve, hdag⟩ := sched_canonical ts h
  have hnodupR : (regNames ts).Nodup := h.1
  have htopo := topoSortNames_perm (canonState ts) (by exact hnodupR) hdag
  have hLnodup : (topoSortNames (canonState (α := α) ts)).Nodup :=
    htopo.nodup_iff.mpr hnodupR
  obtain ⟨hperm, -⟩ := buildLayersLoop_master (canonState ts).tasks (regNames ts)
    (canon_hdeps ts hnodupR hresolve)
    (topoSortNames (canonState ts)).length (topoSortNames (canonState ts)) []
    hLnodup (fun x hx => htopo.mem_iff.mp hx)
    (fun x hxR hxL => absurd (htopo.mem_iff.mpr hxR) hxL)
    (Nat.le_refl _)
  have hout : buildLayersOf (sched ts) =
      buildLayersLoop (canonState ts).tasks (topoSortNames (canonState ts)).length
        (topoSortNames (canonState ts)) [] := by
    rw [hstate]
    rfl
  rw [hout]
  exact hperm.trans htopo

/-- C3 (amended): `run` neither clears nor discards the instance cache.
On full success it returns `self.results_cache` itself — the mapping kept
on the scheduler after the call — and that mapping contains an entry for
every registered task name. -/
theorem run_cache_instance_scoped (ts : List (PipelineTask α)) (h : ValidSetup ts)
    (m : List (String × α)) (hok : (run (sched ts)).result = .ok m) :
    (run (sched ts)).state.results_cache = m ∧
    ∀ n ∈ regNames ts, (dictFind n m).isSome := by
  obtain ⟨hstate, -, hdag⟩ := sched_canonical ts h
  have hdag' : is_directed_acyclic_graph (sched ts) = true := by rw [hstate]; exact hdag
  cases hE : (runLayers (sched ts).tasks (buildLayersOf (sched ts))
      (sched ts).results_cache []).2.2 with
  | some e =>
    exfalso
    have hrun : run (sched ts) =
        { state := { sched ts with
            results_cache := (runLayers (sched ts).tasks (buildLayersOf (sched ts))
              (sched ts).results_cache []).1 },
          result := .error e,
          started := (runLayers (sched ts).tasks (buildLayersOf (sched ts))
            (sched ts).results_cache []).2.1 } := by
      simp only [run]
      rw [if_pos hdag', hE]
    rw [hrun] at hok
    simp at hok
  | none =>
    have hrun : run (sched ts) =
        { state := { sched ts with
            results_cache := (runLayers (sched ts).tasks (buildLayersOf (sched ts))
              (sched ts).results_cache []).1 },
          result := .ok ((runLayers (sched ts).tasks (buildLayersOf (sched ts))
            (sched ts).results_cache []).1),
          started := (runLayers (sched ts).tasks (buildLayersOf (sched ts))
            (sched ts).results_cache []).2.1 } := by
      simp only [run]
      rw [if_pos hdag', hE]
    have hm : (runLayers (sched ts).tasks (buildLayersOf (sched ts))
        (sched ts).results_cache []).1 = m := by
      rw [hrun] at hok
      simpa using hok
    obtain ⟨-, hmem, -⟩ := runLayers_ok_spec (sched ts).tasks (buildLayersOf (sched ts))
      (sched ts).results_cache [] hE
    refine ⟨by rw [hrun]; exact hm, ?_⟩
    intro n hn
    rw [← hm]
    apply hmem
    exact (buildLayers_flatten_perm ts h).mem_iff.mpr hn

/-- Witness for the amended C3: the single-task pipeline returns its
cache, which holds the task's entry and stays on the instance. -/
theorem run_cache_instance_scoped_witness :
    (run (sched soloTs)).result = .ok [("a", 7)] ∧
    ((run (sched soloTs)).state.results_cache = [("a", 7)] ∧
      ∀ n ∈ regNames soloTs, (dictFind n [("a", 7)]).isSome) := by
  have hv : ValidSetup soloTs := ⟨by decide, by decide, rfl⟩
  have hok : (run (sched soloTs)).result = .ok [("a", 7)] := by decide
  exact ⟨hok, run_cache_instance_scoped soloTs hv [("a", 7)] hok⟩

/-- Counterexample to C3 as stated: the results cache outlives the `run`
invocation — the scheduler instance starts with an empty cache, and after
a successful `run` (whose lifetime the spec says the cache is scoped to)
the entry is still there, so the next `run` call on the same instance
begins with it. -/
theorem results_cache_not_run_scoped_cex :
    (sched soloTs).results_cache = ([] : List (String × Nat)) ∧
    (run (sched soloTs)).state.results_cache = [("a", 7)] ∧
    (run (run (sched soloTs)).state).state.results_cache = [("a", 7)] := by
  refine ⟨rfl, by decide, by decide⟩

/-- C4: all-or-nothing run semantics.  Either the run succeeds, returns a
mapping and started every layer, or it surfaces an error to the caller
(returning no mapping), the trace stops with the layer containing the
failure, and no task of any later layer was ever started. -/
theorem run_all_or_nothing (ts : List (PipelineTask α)) (h : ValidSetup ts) :
    (∃ m, (run (sched ts)).result = .ok m ∧
      (run (sched ts)).started = (buildLayersOf (sched ts)).flatten) ∨
    (∃ e i, (run (sched ts)).result = .error e ∧
      i < (buildLayersOf (sched ts)).length ∧
      (run (sched ts)).started = ((buildLayersOf (sched ts)).take (i + 1)).flatten ∧
      ∀ j (hj : j < (buildLayersOf (sched ts)).length), i < j →
        ∀ n ∈ (buildLayersOf (sched ts)).get ⟨j, hj⟩, n ∉ (run (sched ts)).started) := by
  obtain ⟨hstate, -, hdag⟩ := sched_canonical ts h
  have hdag' : is_directed_acyclic_graph (sched ts) = true := by rw [hstate]; exact hdag
  have hflatnodup : (buildLayersOf (sched ts)).flatten.Nodup :=
    (buildLayers_flatten_perm ts h).nodup_iff.mpr h.1
  rcases runLayers_trace (sched ts).tasks (buildLayersOf (sched ts))
      (sched ts).results_cache [] with ⟨h1, h2⟩ | ⟨e, i, h1, h2, h3⟩
  · left
    have hrun : run (sched ts) =
        { state := { sched ts with
            results_cache := (runLayers (sched ts).tasks (buildLayersOf (sched ts))
              (sched ts).results_cache []).1 },
          result := .ok ((runLayers (sched ts).tasks (buildLayersOf (sched ts))
            (sched ts).results_cache []).1),
          started := (runLayers (sched ts).tasks (buildLayersOf (sched ts))
            (sched ts).results_cache []).2.1 } := by
      simp only [run]
      rw [if_pos hdag', h1]
    refine ⟨_, by rw [hrun], ?_⟩
    rw [hrun]
    simpa using h2
  · right
    have hrun : run (sched ts) =
        { state := { sched ts with
            results_cache := (runLayers (sched ts).tasks (buildLayersOf (sched ts))
              (sched ts).results_cache []).1 },
          result := .error e,
          started := (runLayers (sched ts).tasks (buildLayersOf (sched ts))
            (sched ts).results_cache []).2.1 } := by
      simp only [run]
      rw [if_pos hdag', h1]
    have hstarted : (run (sched ts)).started =
        ((buildLayersOf (sched ts)).take (i + 1)).flatten := by
      rw [hrun]
      simpa using h3
    refine ⟨e, i, by rw [hrun], h2, hstarted, ?_⟩
    intro j hj hij n hn hmem
    rw [hstarted] at hmem
    rw [List.mem_flatten] at hmem
    obtain ⟨l', hl', hnl'⟩ := hmem
    obtain ⟨⟨k, hk⟩, hgetk⟩ := List.mem_iff_get.mp hl'
    have hki : k ≤ i := by
      have := hk
      simp only [List.length_take] at this
      omega
    have hkout : k < (buildLayersOf (sched ts)).length := by
      have := hk
      simp only [List.length_take] at this
      omega
    have hgetk' : (buildLayersOf (sched ts)).get ⟨k, hkout⟩ = l' := by
      rw [← hgetk]
      simp [List.getElem_take]
    have hdisj := (List.nodup_flatten.mp hflatnodup).2
    rw [List.pairwise_iff_get] at hdisj
    exact hdisj ⟨k, hkout⟩ ⟨j, hj⟩ (by simpa using lt_of_le_of_lt hki hij)
      (by rw [hgetk']; exact hnl') hn

/-- Witness for C4: in the concrete two-layer pipeline whose first task
fails permanently, the dependent task of layer 1 is never started. -/
theorem run_all_or_nothing_witness : "b" ∉ (run (sched failPipeTs)).started := by
  have hv : ValidSetup failPipeTs := ⟨by decide, by decide, rfl⟩
  rcases run_all_or_nothing failPipeTs hv with ⟨m, hm, -⟩ | ⟨e, i, he, hi, hst, hlater⟩
  · exfalso
    have hres : (run (sched failPipeTs)).result =
        .error (.taskFailed { name := "a", attempts := 2 }) := by decide
    rw [hres] at hm
    simp at hm
  · have hlen : (buildLayersOf (sched failPipeTs)).length = 2 := by decide
    cases i with
    | zero =>
      have h1 : 1 < (buildLayersOf (sched failPipeTs)).length := by rw [hlen]; omega
      have hq : (buildLayersOf (sched failPipeTs))[1]? = some ["b"] := by decide
      have hgets : (buildLayersOf (sched failPipeTs)).get ⟨1, h1⟩ = ["b"] := by
        have hx := List.getElem?_eq_getElem h1
        rw [hq] at hx
        simpa using hx.symm
      exact hlater 1 h1 (by omega) "b" (by rw [hgets]; exact List.mem_cons_self _ _)
    | succ i' =>
      exfalso
      have hi1 : i' = 0 := by omega
      subst hi1
      have hstarted : (run (sched failPipeTs)).started = ["a"] := by decide
      have htake : (((buildLayersOf (sched failPipeTs)).take 2).flatten : List String) =
          ["a", "b"] := by decide
      rw [hstarted, htake] at hst
      simp at hst

/-- Erasing any set of elements yields a subsequence. -/
theorem foldl_erase_sublist :
    ∀ (xs l : List String), List.Sublist (xs.foldl List.erase l) l := by
  intro xs
  induction xs with
  | nil => intro l; exact List.Sublist.refl l
  | cons x rest ih =>
    intro l
    simp only [List.foldl_cons]
    exact (ih (l.erase x)).trans (List.erase_sublist x l)

/-- Every emitted layer is sorted by ascending priority ordinal, and each
equal-priority class of a layer is a subsequence of the remaining task
order the loop started from. -/
theorem buildLayersLoop_sorted_stable (tasks : List (String × PipelineTask α)) :
    ∀ (fuel : Nat) (remaining visited : List String),
      ∀ L ∈ buildLayersLoop tasks fuel remaining visited,
        L.Pairwise (fun a b => prioValue tasks a ≤ prioValue tasks b) ∧
        ∀ p, List.Sublist (L.filter (fun n => decide (prioValue tasks n = p))) remaining := by
  intro fuel
  induction fuel with
  | zero => intro remaining visited L hL; simp [buildLayersLoop] at hL
  | succ f ih =>
    intro remaining visited L hL
    by_cases hrem : remaining.isEmpty
    · rw [buildLayersLoop] at hL
      rw [if_pos hrem] at hL
      simp at hL
    · rw [buildLayersLoop] at hL
      rw [if_neg hrem] at hL
      set ready := remaining.filter
        (fun n => (depsOfName tasks n).all (fun d => visited.contains d)) with hready
      set layer := sortKeyed (prioValue tasks) ready with hlayer
      by_cases hemp : layer.isEmpty
      · rw [if_pos hemp] at hL
        exact ih remaining visited L hL
      · rw [if_neg hemp] at hL
        rcases List.mem_cons.mp hL with hLlayer | hLrest
        · subst hLlayer
          refine ⟨sortKeyed_pairwise _ _, ?_⟩
          intro p
          rw [sortKeyed_filter]
          exact ((List.filter_sublist _).trans (List.filter_sublist _))
        · obtain ⟨h1, h2⟩ := ih (layer.foldl List.erase remaining) (visited ++ layer) L hLrest
          refine ⟨h1, ?_⟩
          intro p
          exact (h2 p).trans (foldl_erase_sublist layer remaining)

/-- C6 (amended): within every computed layer, tasks are ordered by
ascending priority ordinal, and tasks of equal priority appear in the
order in which the topological sort enumerated them (each equal-priority
class of a layer is a subsequence of `list(nx.topological_sort(graph))`),
which need not be registration order. -/
theorem layer_order_priority_stable (s : Scheduler α) :
    ∀ L ∈ buildLayersOf s,
      L.Pairwise (fun a b => prioValue s.tasks a ≤ prioValue s.tasks b) ∧
      ∀ p, List.Sublist (L.filter (fun n => decide (prioValue s.tasks n = p)))
        (topoSortNames s) := by
  intro L hL
  exact buildLayersLoop_sorted_stable s.tasks (topoSortNames s).length
    (topoSortNames s) [] L hL

/-- Witness for the amended C6: the second layer of the crossed diamond is
priority-sorted and its (single) priority class follows the topological
order. -/
theorem layer_order_priority_stable_witness :
    (["y", "x"].Pairwise
      (fun a b => prioValue (sched crossTs).tasks a ≤ prioValue (sched crossTs).tasks b)) ∧
    List.Sublist
      ((["y", "x"]).filter (fun n => decide (prioValue (sched crossTs).tasks n = 1)))
      (topoSortNames (sched crossTs)) := by
  have hmem : ["y", "x"] ∈ buildLayersOf (sched crossTs) := by decide
  obtain ⟨h1, h2⟩ := layer_order_priority_stable (sched crossTs) ["y", "x"] hmem
  exact ⟨h1, h2 1⟩

/-- Counterexample to C6 as stated: in the crossed diamond (x registered
before y, both MEDIUM priority, x depending on b and y on a) the second
layer comes out y-then-x, the reverse of registration order, because the
stable sort ties are broken by the topological enumeration, not by
registration order. -/
theorem layer_tie_break_not_registration_order_cex :
    buildLayersOf (sched crossTs) = [["a", "b"], ["y", "x"]] ∧
    prioValue (sched crossTs).tasks "x" = prioValue (sched crossTs).tasks "y" ∧
    (regNames crossTs).indexOf "x" < (regNames crossTs).indexOf "y" := by
  refine ⟨by decide, by decide, by decide⟩
